import Mathlib

/-!
A shallow embedding of the `BatchSim` batch-scheduling simulator.

This file embeds the core of `src/BatchSim.py` — the `Segment` / `Process`
data model and the `BatchSim` tick-by-tick scheduling engine — as executable
Lean definitions, and proves (or refutes) the specification's claims about it.

Modelling decisions, all read off the Python source:
* Python integers are `Int` (durations, `remaining`, pids); the simulated
  clock `time` only ever increments from 0, so it is a `Nat`.
* Segment kinds and event phases are the strings the source uses
  (`"CPU"`, `"IO"`, `"start"`, `"end"`); routing compares `type == "IO"`
  and otherwise falls back to the CPU ready queue, exactly like line 93.
* The only place the engine can raise is the `segments[current_index]`
  access at the top of `handle_segment_complete` (line 84), which raises
  `IndexError` when the current index is out of range; fallible functions
  therefore return `Option`, with `none` for that crash.
* `run`'s `while` loop is modelled by fuel-indexed iteration `iterN` that
  stops once the loop condition (`running`) is false.
-/

set_option autoImplicit false

namespace BatchSim

/-- Python `Segment` dataclass: a resource kind string and a duration (lines 18-21). -/
structure Segment where
  type : String
  duration : Int
deriving DecidableEq, Repr

/-- Python `Process` dataclass: pid, segment list, cursor and remaining time of the
current segment (lines 23-28). -/
structure Process where
  pid : Int
  segments : List Segment
  current_index : Nat := 0
  remaining : Int := 0
deriving DecidableEq, Repr

/-- Method `Process.start_next` (lines 34-39): load the current segment's duration
into `remaining`; report `false` when the cursor is past the end. -/
def start_next (p : Process) : Process × Bool :=
  if p.current_index < p.segments.length then
    ({ p with remaining := (p.segments.getD p.current_index ⟨"", 0⟩).duration }, true)
  else (p, false)

/-- Method `Process.is_finished` (lines 44-45): the cursor is past the last segment. -/
def is_finished (p : Process) : Bool :=
  p.segments.length ≤ p.current_index

/-- One event tuple `(resource, pid, flag, time)` as appended to
`BatchSim.events` (lines 58, 74, 80, 102). -/
structure Event where
  res : String
  pid : Int
  phase : String
  time : Nat
deriving DecidableEq, Repr

/-- The engine state: `time`, the two FIFO queues, the two single-slot
resources and the event log (lines 49-58). -/
structure SimState where
  time : Nat
  ready_queue : List Process
  io_queue : List Process
  cpu_busy : Option Process
  io_busy : Option Process
  events : List Event
deriving DecidableEq, Repr

/-- Method `initialize` of `BatchSim` (lines 64-68; `initializeSim` here, since the source name is a Lean keyword): call `start_next` on every workload
process and append it to the ready queue, in workload order. -/
def initializeSim (ps : List Process) : SimState :=
  { time := 0
    ready_queue := ps.map (fun p => (start_next p).1)
    io_queue := []
    cpu_busy := none
    io_busy := none
    events := [] }

/-- Method `BatchSim.schedule_cpu` (lines 71-75): if the CPU is idle and the ready
queue nonempty, pop its head into `cpu_busy` and log a start event. -/
def schedule_cpu (st : SimState) : SimState :=
  match st.cpu_busy, st.ready_queue with
  | none, p :: rest =>
      { st with cpu_busy := some p
                ready_queue := rest
                events := st.events ++ [⟨"CPU", p.pid, "start", st.time⟩] }
  | _, _ => st

/-- Method `BatchSim.schedule_io` (lines 77-81): the IO analogue of `schedule_cpu`. -/
def schedule_io (st : SimState) : SimState :=
  match st.io_busy, st.io_queue with
  | none, p :: rest =>
      { st with io_busy := some p
                io_queue := rest
                events := st.events ++ [⟨"IO", p.pid, "start", st.time⟩] }
  | _, _ => st

/-- Method `BatchSim.handle_segment_complete` (lines 83-93): the print on line 84
indexes `segments[current_index]` and raises `IndexError` (modelled by
`none`) when out of range; otherwise advance the cursor, drop the process if
finished, else reload `remaining` and route it to `io_queue` when the next
segment's type string equals `"IO"` and to `ready_queue` otherwise. -/
def handle_segment_complete (st : SimState) (proc : Process) : Option SimState :=
  if proc.current_index < proc.segments.length then
    let proc1 : Process := { proc with current_index := proc.current_index + 1 }
    if is_finished proc1 then
      some st
    else
      let proc2 : Process := (start_next proc1).1
      if (proc2.segments.getD proc2.current_index ⟨"", 0⟩).type == "IO" then
        some { st with io_queue := st.io_queue ++ [proc2] }
      else
        some { st with ready_queue := st.ready_queue ++ [proc2] }
  else none

/-- Method `BatchSim.run_one_unit` (lines 96-104): decrement `remaining`; if work is
left return the process to its slot, otherwise complete the segment and log
an end event at the current time, freeing the resource. -/
def run_one_unit (st : SimState) (proc : Process) (resource_name : String) :
    Option (SimState × Option Process) :=
  let proc : Process := { proc with remaining := proc.remaining - 1 }
  if 0 < proc.remaining then some (st, some proc)
  else
    match handle_segment_complete st proc with
    | none => none
    | some st1 =>
        some ({ st1 with events := st1.events ++ [⟨resource_name, proc.pid, "end", st1.time⟩] },
              none)

/-- The CPU half of `simulate_step` (lines 109-110). -/
def cpu_phase (st : SimState) : Option SimState :=
  match st.cpu_busy with
  | none => some st
  | some p =>
      match run_one_unit st p "CPU" with
      | none => none
      | some (st1, slot) => some { st1 with cpu_busy := slot }

/-- The IO half of `simulate_step` (lines 112-113). -/
def io_phase (st : SimState) : Option SimState :=
  match st.io_busy with
  | none => some st
  | some p =>
      match run_one_unit st p "IO" with
      | none => none
      | some (st1, slot) => some { st1 with io_busy := slot }

/-- Method `BatchSim.simulate_step` (lines 107-118): advance CPU, advance IO, admit
to CPU then to IO, and increment the clock. -/
def simulate_step (st : SimState) : Option SimState :=
  match cpu_phase st with
  | none => none
  | some st1 =>
      match io_phase st1 with
      | none => none
      | some st2 =>
          let st3 := schedule_io (schedule_cpu st2)
          some { st3 with time := st3.time + 1 }

/-- The `while` condition of `BatchSim.run` (lines 124-125). -/
def running (st : SimState) : Bool :=
  !st.ready_queue.isEmpty || !st.io_queue.isEmpty ||
    st.cpu_busy.isSome || st.io_busy.isSome

/-- Fuel-indexed iteration of `simulate_step`, stopping at the first state
where `run`'s loop condition fails; `none` means the fuel ran out while the
loop was still running, or a step crashed with `IndexError`. -/
def iterN : Nat → SimState → Option SimState
  | 0, st => some st
  | n + 1, st =>
      if running st then
        match simulate_step st with
        | none => none
        | some st1 => iterN n st1
      else some st

/-- The states visited by `run` on workload `w` (between ticks). -/
def ReachableFrom (w : List Process) (s : SimState) : Prop :=
  ∃ n, iterN n (initializeSim w) = some s

/-- Proposition that `run` on workload `w` reached the terminal state `s`. -/
def Terminates (w : List Process) (s : SimState) : Prop :=
  ∃ n, iterN n (initializeSim w) = some s ∧ running s = false

/-! Concrete workloads used by individual claims. -/

/-- The golden-trace workload: P1=[CPU 5, IO 4, CPU 3], P2=[CPU 3, IO 2],
P3=[CPU 4]. -/
def goldenWorkload : List Process :=
  [⟨1, [⟨"CPU", 5⟩, ⟨"IO", 4⟩, ⟨"CPU", 3⟩], 0, 0⟩,
   ⟨2, [⟨"CPU", 3⟩, ⟨"IO", 2⟩], 0, 0⟩,
   ⟨3, [⟨"CPU", 4⟩], 0, 0⟩]

/-- The terminal state the engine actually reaches on `goldenWorkload`. -/
def goldenFinal : SimState :=
  { time := 16
    ready_queue := []
    io_queue := []
    cpu_busy := none
    io_busy := none
    events :=
      [⟨"CPU", 1, "start", 0⟩,
       ⟨"CPU", 1, "end", 5⟩,
       ⟨"CPU", 2, "start", 5⟩,
       ⟨"IO", 1, "start", 5⟩,
       ⟨"CPU", 2, "end", 8⟩,
       ⟨"CPU", 3, "start", 8⟩,
       ⟨"IO", 1, "end", 9⟩,
       ⟨"IO", 2, "start", 9⟩,
       ⟨"IO", 2, "end", 11⟩,
       ⟨"CPU", 3, "end", 12⟩,
       ⟨"CPU", 1, "start", 12⟩,
       ⟨"CPU", 1, "end", 15⟩] }

/-- A workload process with an empty segment list. -/
def emptySegsProc : Process := ⟨7, [], 0, 0⟩

/-- A workload process whose only segment has duration 0. -/
def zeroDurProc : Process := ⟨8, [⟨"CPU", 0⟩], 0, 0⟩

/-- The two-CPU-segment workload exercising same-tick CPU readmission. -/
def backToBackCpu : List Process := [⟨1, [⟨"CPU", 1⟩, ⟨"CPU", 1⟩], 0, 0⟩]

/-- The workload exercising same-tick IO readmission (CPU 1, IO 1, IO 1). -/
def backToBackIo : List Process := [⟨1, [⟨"CPU", 1⟩, ⟨"IO", 1⟩, ⟨"IO", 1⟩], 0, 0⟩]

/-- A single process whose single segment is an IO burst of one tick. -/
def singleIoWorkload : List Process := [⟨1, [⟨"IO", 1⟩], 0, 0⟩]

/-- The state the engine reaches on `goldenWorkload` after seven ticks:
P2 on the CPU with 2 units left, P1 on IO with 3 units left, P3 queued. -/
def goldenMid : SimState :=
  ⟨7, [⟨3, [⟨"CPU", 4⟩], 0, 4⟩], [],
    some ⟨2, [⟨"CPU", 3⟩, ⟨"IO", 2⟩], 0, 2⟩,
    some ⟨1, [⟨"CPU", 5⟩, ⟨"IO", 4⟩, ⟨"CPU", 3⟩], 1, 3⟩,
    [⟨"CPU", 1, "start", 0⟩, ⟨"CPU", 1, "end", 5⟩, ⟨"CPU", 2, "start", 5⟩,
     ⟨"IO", 1, "start", 5⟩]⟩

/-! Ghost definitions used to state and prove the invariant claims. -/

/-- View of an optional busy slot as a list of zero or one processes. -/
def optList : Option Process → List Process
  | none => []
  | some p => [p]

/-- All process values currently held by the four engine structures. -/
def allProcs (s : SimState) : List Process :=
  s.ready_queue ++ s.io_queue ++ optList s.cpu_busy ++ optList s.io_busy

/-- A structurally valid workload process: nonempty segments, positive
durations, cursor at the start. -/
def ValidProc (p : Process) : Prop :=
  p.segments ≠ [] ∧ (∀ seg ∈ p.segments, 1 ≤ seg.duration) ∧ p.current_index = 0

/-- A valid workload in the sense of the specification. -/
def ValidWorkload (w : List Process) : Prop := ∀ p ∈ w, ValidProc p

/-- A healthy in-flight process: cursor in range, at least one remaining
unit, positive durations. -/
def GoodProc (p : Process) : Prop :=
  p.current_index < p.segments.length ∧ 1 ≤ p.remaining ∧
    ∀ seg ∈ p.segments, 1 ≤ seg.duration

/-- The resource a segment is routed to on completion of its predecessor:
`"IO"` when its type string is `"IO"`, the CPU ready queue otherwise
(line 93's fallback). -/
def routeRes (seg : Segment) : String :=
  if seg.type == "IO" then "IO" else "CPU"

/-- The resource on which a process's current segment executes: the first
segment always runs on the CPU (`initialize` line 68); later segments go
where `handle_segment_complete` routed them. -/
def curRes (p : Process) : String :=
  if p.current_index = 0 then "CPU"
  else routeRes (p.segments.getD p.current_index ⟨"", 0⟩)

/-- Decrement of the remaining time, as performed by `run_one_unit`. -/
def decRem (p : Process) : Process := { p with remaining := p.remaining - 1 }

/-- The process produced by `handle_segment_complete` when the completed
segment is not the last: cursor advanced, `remaining` reloaded. -/
def advanceP (p : Process) : Process :=
  { p with current_index := p.current_index + 1
           remaining := (p.segments.getD (p.current_index + 1) ⟨"", 0⟩).duration }

/-- Work on resource `R` (in ticks) still owed by the processes of `l`. -/
def sumRoute (R : String) (segs : List Segment) : Int :=
  (segs.map (fun seg => if routeRes seg = R then seg.duration else 0)).sum

/-- Ticks process `p` still has to spend on resource `R`: the rest of the
current segment plus every later segment routed to `R`. -/
def futureWork (R : String) (p : Process) : Int :=
  (if curRes p = R then p.remaining else 0) +
    sumRoute R (p.segments.drop (p.current_index + 1))

/-- Sum of `futureWork R` over a list of processes. -/
def sumF (R : String) (l : List Process) : Int :=
  (l.map (futureWork R)).sum

/-- Ticks still owed to resource `R` by every process in the system. -/
def pending (R : String) (s : SimState) : Int :=
  sumF R s.ready_queue + sumF R s.io_queue +
    sumF R (optList s.cpu_busy) + sumF R (optList s.io_busy)

/-- Total ticks resource `R` will serve over a whole run of workload `w`
(first segments always count to the CPU). -/
def totalWork (R : String) (w : List Process) : Int :=
  (w.map (fun p => futureWork R (start_next p).1)).sum

/-- Sum of the durations of the segments of kind `R`, as the specification
counts them (by the declared type string). -/
def kindSum (R : String) (segs : List Segment) : Int :=
  (segs.map (fun seg => if seg.type == R then seg.duration else 0)).sum

/-- Specification-level total of kind-`R` segment durations of a workload. -/
def totalKind (R : String) (w : List Process) : Int :=
  (w.map (fun p => kindSum R p.segments)).sum

/-- The events of the log belonging to resource `R`, in log order. -/
def resEvents (R : String) (l : List Event) : List Event :=
  l.filter (fun e => e.res == R)

/-- The events of the log belonging to key `(R, i)`, in log order. -/
def keyEvents (R : String) (i : Int) (l : List Event) : List Event :=
  (resEvents R l).filter (fun e => e.pid == i)

/-- An alternating start/end event list on resource `R`: one start
immediately answered by one end per entry `(pid, startTime, endTime)`. -/
def pairsFlat (R : String) : List (Int × Nat × Nat) → List Event
  | [] => []
  | (i, a, b) :: rest =>
      ⟨R, i, "start", a⟩ :: ⟨R, i, "end", b⟩ :: pairsFlat R rest

/-- Sum of the reconstructed occupancy spans `end - start`. -/
def pairSpanSum (pl : List (Int × Nat × Nat)) : Int :=
  (pl.map (fun q => (q.2.2 : Int) - (q.2.1 : Int))).sum

/-- Sum of the timestamps of the end events on resource `R`. -/
def endSum (R : String) (l : List Event) : Int :=
  (l.map (fun e => if e.res == R && e.phase == "end" then (e.time : Int) else 0)).sum

/-- Sum of the timestamps of the start events on resource `R`. -/
def startSum (R : String) (l : List Event) : Int :=
  (l.map (fun e => if e.res == R && e.phase == "start" then (e.time : Int) else 0)).sum

/-- Ticks served so far by resource `R`, reconstructed from the log: every
closed pair contributes its span, an open occupancy contributes the time
elapsed since its start (`bt` is the clock value to measure elapsed time
against: `time - 1` between ticks, `time` mid-tick). -/
def ledger (R : String) (b : Option Process) (l : List Event) (bt : Int) : Int :=
  endSum R l - startSum R l + (match b with | none => 0 | some _ => bt)

/-- Shape of resource `R`'s slice of the log: a run of closed start/end
pairs, followed by one open start belonging to the busy process when the
resource is occupied. -/
def LogShape (R : String) (b : Option Process) (l : List Event) : Prop :=
  match b with
  | none => ∃ pl, resEvents R l = pairsFlat R pl
  | some p => ∃ pl t0, resEvents R l = pairsFlat R pl ++ [⟨R, p.pid, "start", t0⟩]

/-- The structural part of the engine invariant, common to the between-tick
states and the mid-tick states. -/
structure Core (s : SimState) : Prop where
  good : ∀ p ∈ allProcs s, GoodProc p
  rq_cpu : ∀ p ∈ s.ready_queue, curRes p = "CPU"
  cb_cpu : ∀ p ∈ optList s.cpu_busy, curRes p = "CPU"
  iq_io : ∀ p ∈ s.io_queue, curRes p = "IO"
  ib_io : ∀ p ∈ optList s.io_busy, curRes p = "IO"
  sorted : List.Pairwise (fun a b => a.time ≤ b.time) s.events
  bounded : ∀ e ∈ s.events, e.time ≤ s.time
  resOK : ∀ e ∈ s.events, e.res = "CPU" ∨ e.res = "IO"
  shapeC : LogShape "CPU" s.cpu_busy s.events
  shapeI : LogShape "IO" s.io_busy s.events

/-- The full engine invariant at a between-tick state: structure plus time
conservation on both resources. -/
def Inv (w : List Process) (s : SimState) : Prop :=
  Core s ∧
    ledger "CPU" s.cpu_busy s.events ((s.time : Int) - 1) + pending "CPU" s
      = totalWork "CPU" w ∧
    ledger "IO" s.io_busy s.events ((s.time : Int) - 1) + pending "IO" s
      = totalWork "IO" w

/-- The invariant after the CPU advance phase of a tick but before the
clock increment: the CPU ledger is measured against the un-incremented
clock. -/
def CpuMid (w : List Process) (s : SimState) : Prop :=
  Core s ∧
    ledger "CPU" s.cpu_busy s.events (s.time : Int) + pending "CPU" s
      = totalWork "CPU" w ∧
    ledger "IO" s.io_busy s.events ((s.time : Int) - 1) + pending "IO" s
      = totalWork "IO" w

/-- The invariant after both advance phases (and during admission), before
the clock increment. -/
def BothMid (w : List Process) (s : SimState) : Prop :=
  Core s ∧
    ledger "CPU" s.cpu_busy s.events (s.time : Int) + pending "CPU" s
      = totalWork "CPU" w ∧
    ledger "IO" s.io_busy s.events (s.time : Int) + pending "IO" s
      = totalWork "IO" w

/-- Distinctness of the pids held anywhere in the engine. -/
def NodupPids (s : SimState) : Prop :=
  ((allProcs s).map Process.pid).Nodup

/-- The state after the two advance phases of `simulate_step`, on which the
admission decisions of the tick are made. -/
def midState (s : SimState) : Option SimState :=
  match cpu_phase s with
  | none => none
  | some s1 => io_phase s1

/-- The process `schedule_cpu` admits during this tick, if any: the head of
the ready queue as it stands after the completion phases. -/
def cpuAdmitted (s : SimState) : Option Process :=
  match midState s with
  | none => none
  | some m =>
      match m.cpu_busy, m.ready_queue with
      | none, p :: _ => some p
      | _, _ => none

/-- Proposition that the log ends with an end event stamped one tick
before the current clock value. -/
def LastEnd (s : SimState) : Prop :=
  ∃ e, s.events.getLast? = some e ∧ e.phase = "end" ∧ s.time = e.time + 1

/-- The process `schedule_io` admits during this tick, if any. -/
def ioAdmitted (s : SimState) : Option Process :=
  match midState s with
  | none => none
  | some m =>
      match m.io_busy, m.io_queue with
      | none, p :: _ => some p
      | _, _ => none

end BatchSim

namespace BatchSim

/-! Helper lemmas about the ghost quantities. -/

theorem curRes_decRem (p : Process) : curRes (decRem p) = curRes p := by
  simp [curRes, decRem]

theorem pid_decRem (p : Process) : (decRem p).pid = p.pid := rfl

theorem pid_advanceP (p : Process) : (advanceP p).pid = p.pid := rfl

theorem decRem_segments (p : Process) : (decRem p).segments = p.segments := rfl

theorem decRem_current (p : Process) :
    (decRem p).current_index = p.current_index := rfl

theorem decRem_remaining (p : Process) :
    (decRem p).remaining = p.remaining - 1 := rfl

theorem futureWork_decRem (R : String) (p : Process) :
    futureWork R (decRem p) =
      futureWork R p - (if curRes p = R then 1 else 0) := by
  simp only [futureWork, curRes_decRem, decRem_segments, decRem_current,
    decRem_remaining]
  by_cases hc : curRes p = R <;> simp only [hc, if_true, if_false, if_pos, if_neg,
    not_false_iff] <;> ring

theorem advanceP_segments (p : Process) : (advanceP p).segments = p.segments := rfl

theorem advanceP_current (p : Process) :
    (advanceP p).current_index = p.current_index + 1 := rfl

theorem advanceP_remaining (p : Process) :
    (advanceP p).remaining =
      (p.segments.getD (p.current_index + 1) ⟨"", 0⟩).duration := rfl

theorem curRes_advanceP (p : Process) :
    curRes (advanceP p) = routeRes (p.segments.getD (p.current_index + 1) ⟨"", 0⟩) := by
  simp [curRes, advanceP]

theorem sumRoute_cons (R : String) (seg : Segment) (l : List Segment) :
    sumRoute R (seg :: l) =
      (if routeRes seg = R then seg.duration else 0) + sumRoute R l := by
  simp [sumRoute]

theorem futureWork_advanceP (R : String) (p : Process)
    (h : p.current_index + 1 < p.segments.length) :
    futureWork R (advanceP p) =
      futureWork R p - (if curRes p = R then p.remaining else 0) := by
  have hdrop : p.segments.drop (p.current_index + 1) =
      p.segments.getD (p.current_index + 1) ⟨"", 0⟩ ::
        p.segments.drop (p.current_index + 2) := by
    rw [List.getD_eq_getElem p.segments ⟨"", 0⟩ h]
    exact List.drop_eq_getElem_cons h
  have h1 : futureWork R p =
      (if curRes p = R then p.remaining else 0) +
        ((if routeRes (p.segments.getD (p.current_index + 1) ⟨"", 0⟩) = R
            then (p.segments.getD (p.current_index + 1) ⟨"", 0⟩).duration else 0) +
          sumRoute R (p.segments.drop (p.current_index + 2))) := by
    rw [futureWork, hdrop, sumRoute_cons]
  have h2 : futureWork R (advanceP p) =
      (if routeRes (p.segments.getD (p.current_index + 1) ⟨"", 0⟩) = R
          then (p.segments.getD (p.current_index + 1) ⟨"", 0⟩).duration else 0) +
        sumRoute R (p.segments.drop (p.current_index + 2)) := by
    rw [futureWork, curRes_advanceP, advanceP_remaining, advanceP_segments,
      advanceP_current]
  rw [h1, h2]
  ring

theorem futureWork_last (R : String) (p : Process)
    (h : p.segments.length ≤ p.current_index + 1) :
    futureWork R p = (if curRes p = R then p.remaining else 0) := by
  simp [futureWork, List.drop_eq_nil_of_le h, sumRoute]

theorem sumF_nil (R : String) : sumF R [] = 0 := rfl

theorem sumF_cons (R : String) (p : Process) (l : List Process) :
    sumF R (p :: l) = futureWork R p + sumF R l := by
  simp [sumF]

theorem sumF_append (R : String) (l l' : List Process) :
    sumF R (l ++ l') = sumF R l + sumF R l' := by
  simp [sumF]

theorem sumF_one (R : String) (p : Process) : sumF R [p] = futureWork R p := by
  simp [sumF]

theorem endSum_append (R : String) (l l' : List Event) :
    endSum R (l ++ l') = endSum R l + endSum R l' := by
  simp [endSum]

theorem startSum_append (R : String) (l l' : List Event) :
    startSum R (l ++ l') = startSum R l + startSum R l' := by
  simp [startSum]

theorem resEvents_append (R : String) (l l' : List Event) :
    resEvents R (l ++ l') = resEvents R l ++ resEvents R l' := by
  simp [resEvents]

theorem pairsFlat_append (R : String) (pl pl' : List (Int × Nat × Nat)) :
    pairsFlat R (pl ++ pl') = pairsFlat R pl ++ pairsFlat R pl' := by
  induction pl with
  | nil => rfl
  | cons q rest ih =>
      obtain ⟨i, a, b⟩ := q
      simp [pairsFlat, ih]

theorem shape_close (R : String) (p : Process) (l : List Event) (t : Nat)
    (h : LogShape R (some p) l) :
    LogShape R none (l ++ [⟨R, p.pid, "end", t⟩]) := by
  obtain ⟨pl, t0, hl⟩ := h
  refine ⟨pl ++ [(p.pid, t0, t)], ?_⟩
  rw [resEvents_append, hl, pairsFlat_append]
  simp [resEvents, pairsFlat]

theorem shape_open (R : String) (q : Process) (l : List Event) (t : Nat)
    (h : LogShape R none l) :
    LogShape R (some q) (l ++ [⟨R, q.pid, "start", t⟩]) := by
  obtain ⟨pl, hl⟩ := h
  refine ⟨pl, t, ?_⟩
  rw [resEvents_append, hl]
  simp [resEvents]

theorem shape_skip (R : String) (b : Option Process) (l l' : List Event)
    (h : LogShape R b l) (h' : resEvents R l' = []) :
    LogShape R b (l ++ l') := by
  cases b with
  | none =>
      obtain ⟨pl, hl⟩ := h
      exact ⟨pl, by rw [resEvents_append, hl, h', List.append_nil]⟩
  | some p =>
      obtain ⟨pl, t0, hl⟩ := h
      exact ⟨pl, t0, by rw [resEvents_append, hl, h', List.append_nil]⟩

theorem shape_pid (R : String) (p q : Process) (l : List Event)
    (h : LogShape R (some p) l) (hpq : q.pid = p.pid) :
    LogShape R (some q) l := by
  obtain ⟨pl, t0, hl⟩ := h
  exact ⟨pl, t0, by rw [hpq]; exact hl⟩

theorem sorted_snoc (l : List Event) (e : Event)
    (hs : List.Pairwise (fun a b => a.time ≤ b.time) l)
    (hb : ∀ x ∈ l, x.time ≤ e.time) :
    List.Pairwise (fun a b => a.time ≤ b.time) (l ++ [e]) := by
  rw [List.pairwise_append]
  exact ⟨hs, List.pairwise_singleton _ _, fun a ha b hbm => by
    simp only [List.mem_singleton] at hbm
    subst hbm
    exact hb a ha⟩

/-! Step characterization lemmas: every successful phase of a tick is one
of a handful of precisely described outcomes. -/

theorem run_one_unit_cases {st st' : SimState} {p : Process} {r : String}
    {slot : Option Process} (h : run_one_unit st p r = some (st', slot)) :
    (1 < p.remaining ∧ st' = st ∧ slot = some (decRem p)) ∨
    (p.remaining ≤ 1 ∧ slot = none ∧ p.current_index < p.segments.length ∧
      ((p.segments.length = p.current_index + 1 ∧
        st' = { st with events := st.events ++ [⟨r, p.pid, "end", st.time⟩] }) ∨
       (p.current_index + 1 < p.segments.length ∧ curRes (advanceP p) = "IO" ∧
        st' = { st with io_queue := st.io_queue ++ [advanceP p]
                        events := st.events ++ [⟨r, p.pid, "end", st.time⟩] }) ∨
       (p.current_index + 1 < p.segments.length ∧ curRes (advanceP p) = "CPU" ∧
        st' = { st with ready_queue := st.ready_queue ++ [advanceP p]
                        events := st.events ++ [⟨r, p.pid, "end", st.time⟩] }))) := by
  by_cases h1 : (1 : Int) < p.remaining
  · left
    have h0 : (0 : Int) < p.remaining - 1 := by omega
    simp only [run_one_unit, h0, if_true, if_pos] at h
    obtain ⟨hst, hslot⟩ := Prod.mk.injEq .. ▸ Option.some.inj h
    exact ⟨h1, hst.symm, by rw [← hslot]; rfl⟩
  · right
    have h0 : ¬ ((0 : Int) < p.remaining - 1) := by omega
    simp only [run_one_unit, h0, if_false, if_neg, not_false_iff] at h
    by_cases hin : p.current_index < p.segments.length
    · simp only [handle_segment_complete, decRem, hin, if_true, if_pos] at h
      by_cases hfin : p.segments.length ≤ p.current_index + 1
      · have hlen : p.segments.length = p.current_index + 1 := by omega
        simp only [is_finished, hfin, if_true, decide_True, if_pos] at h
        obtain ⟨hst, hslot⟩ := Prod.mk.injEq .. ▸ Option.some.inj h
        exact ⟨by omega, hslot.symm, hin, Or.inl ⟨hlen, hst.symm⟩⟩
      · have hlt : p.current_index + 1 < p.segments.length := by omega
        simp only [is_finished, hfin, if_false, decide_False, if_neg,
          not_false_iff] at h
        have hsn : p.current_index + 1 < p.segments.length := hlt
        by_cases hio : ((p.segments.getD (p.current_index + 1) ⟨"", 0⟩).type == "IO") = true
        · have hroute : curRes (advanceP p) = "IO" := by
            rw [curRes_advanceP, routeRes, if_pos hio]
          simp only [start_next, hsn, if_true, if_pos, hio] at h
          obtain ⟨hst, hslot⟩ := Prod.mk.injEq .. ▸ Option.some.inj h
          exact ⟨by omega, hslot.symm, hin, Or.inr (Or.inl ⟨hlt, hroute, hst.symm⟩)⟩
        · have hio' : ((p.segments.getD (p.current_index + 1) ⟨"", 0⟩).type == "IO") = false := by
            simpa using hio
          have hne : (p.segments.getD (p.current_index + 1) ⟨"", 0⟩).type ≠ "IO" := by
            simpa using hio
          have hroute : curRes (advanceP p) = "CPU" := by
            rw [curRes_advanceP, routeRes, if_neg (by rw [hio']; exact Bool.false_ne_true)]
          simp only [start_next, hsn, if_true, if_pos, hio', Bool.false_eq_true,
            if_false] at h
          obtain ⟨hst, hslot⟩ := Prod.mk.injEq .. ▸ Option.some.inj h
          exact ⟨by omega, hslot.symm, hin, Or.inr (Or.inr ⟨hlt, hroute, hst.symm⟩)⟩
    · simp only [handle_segment_complete, decRem, hin, if_false, if_neg,
        not_false_iff] at h
      exact absurd h (by simp)

theorem cpu_phase_cases {s s₁ : SimState} (h : cpu_phase s = some s₁) :
    (s.cpu_busy = none ∧ s₁ = s) ∨
    (∃ p, s.cpu_busy = some p ∧ 1 < p.remaining ∧
      s₁ = { s with cpu_busy := some (decRem p) }) ∨
    (∃ p, s.cpu_busy = some p ∧ p.remaining ≤ 1 ∧
      p.current_index < p.segments.length ∧
      p.segments.length = p.current_index + 1 ∧
      s₁ = { s with cpu_busy := none
                    events := s.events ++ [⟨"CPU", p.pid, "end", s.time⟩] }) ∨
    (∃ p, s.cpu_busy = some p ∧ p.remaining ≤ 1 ∧
      p.current_index + 1 < p.segments.length ∧ curRes (advanceP p) = "IO" ∧
      s₁ = { s with cpu_busy := none
                    io_queue := s.io_queue ++ [advanceP p]
                    events := s.events ++ [⟨"CPU", p.pid, "end", s.time⟩] }) ∨
    (∃ p, s.cpu_busy = some p ∧ p.remaining ≤ 1 ∧
      p.current_index + 1 < p.segments.length ∧ curRes (advanceP p) = "CPU" ∧
      s₁ = { s with cpu_busy := none
                    ready_queue := s.ready_queue ++ [advanceP p]
                    events := s.events ++ [⟨"CPU", p.pid, "end", s.time⟩] }) := by
  cases hb : s.cpu_busy with
  | none =>
      simp only [cpu_phase, hb] at h
      exact Or.inl ⟨rfl, (Option.some.inj h).symm⟩
  | some p =>
      simp only [cpu_phase, hb] at h
      cases hr : run_one_unit s p "CPU" with
      | none => rw [hr] at h; exact absurd h (by simp)
      | some pr =>
          obtain ⟨st1, slot⟩ := pr
          rw [hr] at h
          simp only [Option.some.injEq] at h
          rcases run_one_unit_cases hr with ⟨h1, hst, hslot⟩ | ⟨h1, hslot, hin, hcase⟩
          · subst hst; subst hslot
            exact Or.inr (Or.inl ⟨p, rfl, h1, h.symm⟩)
          · subst hslot
            rcases hcase with ⟨hlen, hst⟩ | ⟨hlt, hroute, hst⟩ | ⟨hlt, hroute, hst⟩
            · subst hst
              exact Or.inr (Or.inr (Or.inl ⟨p, rfl, h1, hin, hlen, h.symm⟩))
            · subst hst
              exact Or.inr (Or.inr (Or.inr (Or.inl ⟨p, rfl, h1, hlt, hroute, h.symm⟩)))
            · subst hst
              exact Or.inr (Or.inr (Or.inr (Or.inr ⟨p, rfl, h1, hlt, hroute, h.symm⟩)))

theorem io_phase_cases {s s₁ : SimState} (h : io_phase s = some s₁) :
    (s.io_busy = none ∧ s₁ = s) ∨
    (∃ p, s.io_busy = some p ∧ 1 < p.remaining ∧
      s₁ = { s with io_busy := some (decRem p) }) ∨
    (∃ p, s.io_busy = some p ∧ p.remaining ≤ 1 ∧
      p.current_index < p.segments.length ∧
      p.segments.length = p.current_index + 1 ∧
      s₁ = { s with io_busy := none
                    events := s.events ++ [⟨"IO", p.pid, "end", s.time⟩] }) ∨
    (∃ p, s.io_busy = some p ∧ p.remaining ≤ 1 ∧
      p.current_index + 1 < p.segments.length ∧ curRes (advanceP p) = "IO" ∧
      s₁ = { s with io_busy := none
                    io_queue := s.io_queue ++ [advanceP p]
                    events := s.events ++ [⟨"IO", p.pid, "end", s.time⟩] }) ∨
    (∃ p, s.io_busy = some p ∧ p.remaining ≤ 1 ∧
      p.current_index + 1 < p.segments.length ∧ curRes (advanceP p) = "CPU" ∧
      s₁ = { s with io_busy := none
                    ready_queue := s.ready_queue ++ [advanceP p]
                    events := s.events ++ [⟨"IO", p.pid, "end", s.time⟩] }) := by
  cases hb : s.io_busy with
  | none =>
      simp only [io_phase, hb] at h
      exact Or.inl ⟨rfl, (Option.some.inj h).symm⟩
  | some p =>
      simp only [io_phase, hb] at h
      cases hr : run_one_unit s p "IO" with
      | none => rw [hr] at h; exact absurd h (by simp)
      | some pr =>
          obtain ⟨st1, slot⟩ := pr
          rw [hr] at h
          simp only [Option.some.injEq] at h
          rcases run_one_unit_cases hr with ⟨h1, hst, hslot⟩ | ⟨h1, hslot, hin, hcase⟩
          · subst hst; subst hslot
            exact Or.inr (Or.inl ⟨p, rfl, h1, h.symm⟩)
          · subst hslot
            rcases hcase with ⟨hlen, hst⟩ | ⟨hlt, hroute, hst⟩ | ⟨hlt, hroute, hst⟩
            · subst hst
              exact Or.inr (Or.inr (Or.inl ⟨p, rfl, h1, hin, hlen, h.symm⟩))
            · subst hst
              exact Or.inr (Or.inr (Or.inr (Or.inl ⟨p, rfl, h1, hlt, hroute, h.symm⟩)))
            · subst hst
              exact Or.inr (Or.inr (Or.inr (Or.inr ⟨p, rfl, h1, hlt, hroute, h.symm⟩)))

theorem schedule_cpu_of_busy {s : SimState} {p : Process}
    (h : s.cpu_busy = some p) : schedule_cpu s = s := by
  cases hq : s.ready_queue <;> simp [schedule_cpu, h, hq]

theorem schedule_cpu_of_nil {s : SimState} (h : s.ready_queue = []) :
    schedule_cpu s = s := by
  cases hb : s.cpu_busy <;> simp [schedule_cpu, h, hb]

theorem schedule_cpu_pop {s : SimState} {p : Process} {rest : List Process}
    (hb : s.cpu_busy = none) (hq : s.ready_queue = p :: rest) :
    schedule_cpu s = { s with cpu_busy := some p
                              ready_queue := rest
                              events := s.events ++ [⟨"CPU", p.pid, "start", s.time⟩] } := by
  simp [schedule_cpu, hb, hq]

theorem schedule_io_of_busy {s : SimState} {p : Process}
    (h : s.io_busy = some p) : schedule_io s = s := by
  cases hq : s.io_queue <;> simp [schedule_io, h, hq]

theorem schedule_io_of_nil {s : SimState} (h : s.io_queue = []) :
    schedule_io s = s := by
  cases hb : s.io_busy <;> simp [schedule_io, h, hb]

theorem schedule_io_pop {s : SimState} {p : Process} {rest : List Process}
    (hb : s.io_busy = none) (hq : s.io_queue = p :: rest) :
    schedule_io s = { s with io_busy := some p
                             io_queue := rest
                             events := s.events ++ [⟨"IO", p.pid, "start", s.time⟩] } := by
  simp [schedule_io, hb, hq]

theorem simulate_step_eq (s : SimState) :
    simulate_step s = (midState s).map
      (fun m => { schedule_io (schedule_cpu m) with
                  time := (schedule_io (schedule_cpu m)).time + 1 }) := by
  cases h1 : cpu_phase s with
  | none => simp [simulate_step, midState, h1]
  | some s1 =>
      cases h2 : io_phase s1 with
      | none => simp [simulate_step, midState, h1, h2]
      | some s2 => simp [simulate_step, midState, h1, h2]

theorem handle_progress (st : SimState) (proc : Process)
    (hin : proc.current_index < proc.segments.length) :
    ∃ st1, handle_segment_complete st proc = some st1 := by
  rw [handle_segment_complete, if_pos hin]
  dsimp only
  split
  · exact ⟨_, rfl⟩
  · split
    · exact ⟨_, rfl⟩
    · exact ⟨_, rfl⟩

theorem run_one_unit_progress (st : SimState) (p : Process) (r : String)
    (hin : p.current_index < p.segments.length) :
    ∃ out, run_one_unit st p r = some out := by
  by_cases h1 : (0 : Int) < p.remaining - 1
  · refine ⟨(st, some (decRem p)), ?_⟩
    rw [run_one_unit]
    dsimp only
    rw [if_pos h1]
    rfl
  · obtain ⟨st1, h2⟩ := handle_progress st (decRem p) (by simpa [decRem] using hin)
    refine ⟨({ st1 with events := st1.events ++ [⟨r, p.pid, "end", st1.time⟩] }, none), ?_⟩
    rw [run_one_unit]
    dsimp only
    rw [if_neg h1]
    rw [show (handle_segment_complete st { p with remaining := p.remaining - 1 }) =
      some st1 from h2]

theorem cpu_phase_progress (s : SimState)
    (hb : ∀ p, s.cpu_busy = some p → p.current_index < p.segments.length) :
    ∃ s₁, cpu_phase s = some s₁ := by
  cases hcb : s.cpu_busy with
  | none => exact ⟨s, by simp [cpu_phase, hcb]⟩
  | some p =>
      obtain ⟨out, hout⟩ := run_one_unit_progress s p "CPU" (hb p hcb)
      obtain ⟨o1, o2⟩ := out
      exact ⟨{ o1 with cpu_busy := o2 }, by simp [cpu_phase, hcb, hout]⟩

theorem io_phase_progress (s : SimState)
    (hb : ∀ p, s.io_busy = some p → p.current_index < p.segments.length) :
    ∃ s₁, io_phase s = some s₁ := by
  cases hcb : s.io_busy with
  | none => exact ⟨s, by simp [io_phase, hcb]⟩
  | some p =>
      obtain ⟨out, hout⟩ := run_one_unit_progress s p "IO" (hb p hcb)
      obtain ⟨o1, o2⟩ := out
      exact ⟨{ o1 with io_busy := o2 }, by simp [io_phase, hcb, hout]⟩

/-! Micro-lemmas feeding the invariant preservation proof. -/

theorem ledger_none (R : String) (l : List Event) (bt : Int) :
    ledger R none l bt = endSum R l - startSum R l := by simp [ledger]

theorem ledger_some (R : String) (p : Process) (l : List Event) (bt : Int) :
    ledger R (some p) l bt = endSum R l - startSum R l + bt := rfl

theorem optList_none : optList none = [] := rfl

theorem optList_some (p : Process) : optList (some p) = [p] := rfl

theorem cpu_mem_allProcs {s : SimState} {p : Process}
    (h : s.cpu_busy = some p) : p ∈ allProcs s := by
  simp [allProcs, optList, h]

theorem io_mem_allProcs {s : SimState} {p : Process}
    (h : s.io_busy = some p) : p ∈ allProcs s := by
  simp [allProcs, optList, h]

theorem ready_mem_allProcs {s : SimState} {p : Process}
    (h : p ∈ s.ready_queue) : p ∈ allProcs s := by
  simp [allProcs, h]

theorem ioq_mem_allProcs {s : SimState} {p : Process}
    (h : p ∈ s.io_queue) : p ∈ allProcs s := by
  simp [allProcs, h]

theorem getD_mem {p : Process} (h : p.current_index + 1 < p.segments.length) :
    p.segments.getD (p.current_index + 1) ⟨"", 0⟩ ∈ p.segments := by
  rw [List.getD_eq_getElem p.segments ⟨"", 0⟩ h]
  exact List.getElem_mem h

theorem good_decRem {p : Process} (hg : GoodProc p) (h1 : 1 < p.remaining) :
    GoodProc (decRem p) := by
  obtain ⟨hin, hrem, hsegs⟩ := hg
  exact ⟨hin, by rw [decRem_remaining]; omega, hsegs⟩

theorem good_advanceP {p : Process} (hg : GoodProc p)
    (hlt : p.current_index + 1 < p.segments.length) :
    GoodProc (advanceP p) := by
  obtain ⟨hin, hrem, hsegs⟩ := hg
  refine ⟨by rw [advanceP_current, advanceP_segments]; exact hlt, ?_, ?_⟩
  · rw [advanceP_remaining]
    exact hsegs _ (getD_mem hlt)
  · rw [advanceP_segments]
    exact hsegs

theorem endSum_single (R R' ph : String) (i : Int) (t : Nat) :
    endSum R [⟨R', i, ph, t⟩] =
      if R' == R && ph == "end" then (t : Int) else 0 := by
  simp [endSum]

theorem startSum_single (R R' ph : String) (i : Int) (t : Nat) :
    startSum R [⟨R', i, ph, t⟩] =
      if R' == R && ph == "start" then (t : Int) else 0 := by
  simp [startSum]

theorem resEvents_single_ne (R R' ph : String) (i : Int) (t : Nat)
    (h : (R' == R) = false) : resEvents R [⟨R', i, ph, t⟩] = [] := by
  simp [resEvents, h]

theorem mem_optList {b : Option Process} {q : Process} :
    q ∈ optList b ↔ b = some q := by
  cases b <;> simp [optList, eq_comm]

theorem mem_allProcs_iff {s : SimState} {q : Process} :
    q ∈ allProcs s ↔
      q ∈ s.ready_queue ∨ q ∈ s.io_queue ∨
        s.cpu_busy = some q ∨ s.io_busy = some q := by
  simp [allProcs, List.mem_append, mem_optList, or_assoc]

/-! Preservation of the invariant through one tick, phase by phase. -/

theorem inv_cpu_phase {w : List Process} {s s₁ : SimState}
    (hI : Inv w s) (h : cpu_phase s = some s₁) : CpuMid w s₁ := by
  obtain ⟨hC, hledC, hledI⟩ := hI
  rcases cpu_phase_cases h with ⟨hb, rfl⟩ | ⟨p, hb, h1, rfl⟩ |
    ⟨p, hb, h1, hin, hlen, rfl⟩ | ⟨p, hb, h1, hlt, hroute, rfl⟩ |
    ⟨p, hb, h1, hlt, hroute, rfl⟩
  · -- CPU idle: nothing happens, the ledger does not involve the clock
    refine ⟨hC, ?_, hledI⟩
    rw [hb, ledger_none] at hledC
    rw [hb, ledger_none]
    exact hledC
  all_goals
    have hgp := hC.good p (cpu_mem_allProcs hb)
    have hcur : curRes p = "CPU" := hC.cb_cpu p (mem_optList.mpr hb)
  · -- CPU busy with work left: decrement only
    have hfC : futureWork "CPU" (decRem p) = futureWork "CPU" p - 1 := by
      rw [futureWork_decRem, if_pos hcur]
    have hfI : futureWork "IO" (decRem p) = futureWork "IO" p := by
      rw [futureWork_decRem, if_neg (by rw [hcur]; decide)]; ring
    refine ⟨⟨?_, ?_, ?_, ?_, ?_, ?_, ?_, ?_, ?_, ?_⟩, ?_, ?_⟩
    · intro q hq
      rw [mem_allProcs_iff] at hq
      rcases hq with hq | hq | hq | hq
      · exact hC.good q (ready_mem_allProcs hq)
      · exact hC.good q (ioq_mem_allProcs hq)
      · cases Option.some.inj hq
        exact good_decRem hgp h1
      · exact hC.good q (io_mem_allProcs hq)
    · exact hC.rq_cpu
    · intro q hq
      rw [mem_optList] at hq
      cases Option.some.inj hq
      rw [curRes_decRem]
      exact hcur
    · exact hC.iq_io
    · exact hC.ib_io
    · exact hC.sorted
    · exact hC.bounded
    · exact hC.resOK
    · exact shape_pid "CPU" p (decRem p) s.events (hb ▸ hC.shapeC) (pid_decRem p)
    · exact hC.shapeI
    · simp only [ledger_some, pending, optList_some, sumF_one, hb] at hledC ⊢
      rw [hfC]
      linarith
    · simp only [ledger, pending, optList_some, sumF_one, hb] at hledI ⊢
      rw [hfI]
      linarith
  · -- CPU busy, last segment completes: process dropped, end event logged
    have hrem1 : p.remaining = 1 := by have h2 := hgp.2.1; omega
    have hfC : futureWork "CPU" p = 1 := by
      rw [futureWork_last "CPU" p hlen.le, if_pos hcur, hrem1]
    have hfI : futureWork "IO" p = 0 := by
      rw [futureWork_last "IO" p hlen.le, if_neg (by rw [hcur]; decide)]
    refine ⟨⟨?_, ?_, ?_, ?_, ?_, ?_, ?_, ?_, ?_, ?_⟩, ?_, ?_⟩
    · intro q hq
      rw [mem_allProcs_iff] at hq
      rcases hq with hq | hq | hq | hq
      · exact hC.good q (ready_mem_allProcs hq)
      · exact hC.good q (ioq_mem_allProcs hq)
      · exact absurd hq (by simp)
      · exact hC.good q (io_mem_allProcs hq)
    · exact hC.rq_cpu
    · intro q hq
      rw [mem_optList] at hq
      exact absurd hq (by simp)
    · exact hC.iq_io
    · exact hC.ib_io
    · exact sorted_snoc _ _ hC.sorted (fun x hx => hC.bounded x hx)
    · intro e he
      rcases List.mem_append.mp he with he | he
      · exact hC.bounded e he
      · simp only [List.mem_singleton] at he
        subst he
        exact le_refl _
    · intro e he
      rcases List.mem_append.mp he with he | he
      · exact hC.resOK e he
      · simp only [List.mem_singleton] at he
        subst he
        exact Or.inl rfl
    · exact shape_close "CPU" p s.events s.time (hb ▸ hC.shapeC)
    · exact shape_skip "IO" s.io_busy s.events _ hC.shapeI
        (resEvents_single_ne "IO" "CPU" "end" p.pid s.time (by decide))
    · simp only [ledger_some, ledger_none, pending, optList_some, optList_none,
        sumF_one, sumF_nil, endSum_append, startSum_append, endSum_single,
        startSum_single, hb] at hledC ⊢
      simp only [show (("CPU" : String) == "CPU" && ("end" : String) == "end") = true
          from by decide,
        show (("CPU" : String) == "CPU" && ("end" : String) == "start") = false
          from by decide, Bool.false_eq_true, eq_self_iff_true, if_true, if_false]
      linarith
    · simp only [ledger, pending, optList_some, optList_none, sumF_one, sumF_nil,
        endSum_append, startSum_append, endSum_single, startSum_single, hb] at hledI ⊢
      simp only [show (("CPU" : String) == "IO" && ("end" : String) == "end") = false
          from by decide,
        show (("CPU" : String) == "IO" && ("end" : String) == "start") = false
          from by decide, Bool.false_eq_true, if_false]
      linarith
  · -- CPU busy, segment completes, next segment routed to the IO queue
    have hrem1 : p.remaining = 1 := by have h2 := hgp.2.1; omega
    have hfC : futureWork "CPU" (advanceP p) = futureWork "CPU" p - 1 := by
      rw [futureWork_advanceP "CPU" p hlt, if_pos hcur, hrem1]
    have hfI : futureWork "IO" (advanceP p) = futureWork "IO" p := by
      rw [futureWork_advanceP "IO" p hlt, if_neg (by rw [hcur]; decide)]; ring
    refine ⟨⟨?_, ?_, ?_, ?_, ?_, ?_, ?_, ?_, ?_, ?_⟩, ?_, ?_⟩
    · intro q hq
      rw [mem_allProcs_iff] at hq
      rcases hq with hq | hq | hq | hq
      · exact hC.good q (ready_mem_allProcs hq)
      · rcases List.mem_append.mp hq with hq | hq
        · exact hC.good q (ioq_mem_allProcs hq)
        · simp only [List.mem_singleton] at hq
          subst hq
          exact good_advanceP hgp hlt
      · exact absurd hq (by simp)
      · exact hC.good q (io_mem_allProcs hq)
    · exact hC.rq_cpu
    · intro q hq
      rw [mem_optList] at hq
      exact absurd hq (by simp)
    · intro q hq
      rcases List.mem_append.mp hq with hq | hq
      · exact hC.iq_io q hq
      · simp only [List.mem_singleton] at hq
        subst hq
        exact hroute
    · exact hC.ib_io
    · exact sorted_snoc _ _ hC.sorted (fun x hx => hC.bounded x hx)
    · intro e he
      rcases List.mem_append.mp he with he | he
      · exact hC.bounded e he
      · simp only [List.mem_singleton] at he
        subst he
        exact le_refl _
    · intro e he
      rcases List.mem_append.mp he with he | he
      · exact hC.resOK e he
      · simp only [List.mem_singleton] at he
        subst he
        exact Or.inl rfl
    · exact shape_close "CPU" p s.events s.time (hb ▸ hC.shapeC)
    · exact shape_skip "IO" s.io_busy s.events _ hC.shapeI
        (resEvents_single_ne "IO" "CPU" "end" p.pid s.time (by decide))
    · simp only [ledger_some, ledger_none, pending, optList_some, optList_none,
        sumF_one, sumF_nil, sumF_append, endSum_append, startSum_append,
        endSum_single, startSum_single, hb] at hledC ⊢
      simp only [show (("CPU" : String) == "CPU" && ("end" : String) == "end") = true
          from by decide,
        show (("CPU" : String) == "CPU" && ("end" : String) == "start") = false
          from by decide, Bool.false_eq_true, eq_self_iff_true, if_true, if_false]
      rw [hfC]
      linarith
    · simp only [ledger, pending, optList_some, optList_none, sumF_one, sumF_nil,
        sumF_append, endSum_append, startSum_append, endSum_single,
        startSum_single, hb] at hledI ⊢
      simp only [show (("CPU" : String) == "IO" && ("end" : String) == "end") = false
          from by decide,
        show (("CPU" : String) == "IO" && ("end" : String) == "start") = false
          from by decide, Bool.false_eq_true, if_false]
      rw [hfI]
      linarith
  · -- CPU busy, segment completes, next segment routed to the ready queue
    have hrem1 : p.remaining = 1 := by have h2 := hgp.2.1; omega
    have hfC : futureWork "CPU" (advanceP p) = futureWork "CPU" p - 1 := by
      rw [futureWork_advanceP "CPU" p hlt, if_pos hcur, hrem1]
    have hfI : futureWork "IO" (advanceP p) = futureWork "IO" p := by
      rw [futureWork_advanceP "IO" p hlt, if_neg (by rw [hcur]; decide)]; ring
    refine ⟨⟨?_, ?_, ?_, ?_, ?_, ?_, ?_, ?_, ?_, ?_⟩, ?_, ?_⟩
    · intro q hq
      rw [mem_allProcs_iff] at hq
      rcases hq with hq | hq | hq | hq
      · rcases List.mem_append.mp hq with hq | hq
        · exact hC.good q (ready_mem_allProcs hq)
        · simp only [List.mem_singleton] at hq
          subst hq
          exact good_advanceP hgp hlt
      · exact hC.good q (ioq_mem_allProcs hq)
      · exact absurd hq (by simp)
      · exact hC.good q (io_mem_allProcs hq)
    · intro q hq
      rcases List.mem_append.mp hq with hq | hq
      · exact hC.rq_cpu q hq
      · simp only [List.mem_singleton] at hq
        subst hq
        exact hroute
    · intro q hq
      rw [mem_optList] at hq
      exact absurd hq (by simp)
    · exact hC.iq_io
    · exact hC.ib_io
    · exact sorted_snoc _ _ hC.sorted (fun x hx => hC.bounded x hx)
    · intro e he
      rcases List.mem_append.mp he with he | he
      · exact hC.bounded e he
      · simp only [List.mem_singleton] at he
        subst he
        exact le_refl _
    · intro e he
      rcases List.mem_append.mp he with he | he
      · exact hC.resOK e he
      · simp only [List.mem_singleton] at he
        subst he
        exact Or.inl rfl
    · exact shape_close "CPU" p s.events s.time (hb ▸ hC.shapeC)
    · exact shape_skip "IO" s.io_busy s.events _ hC.shapeI
        (resEvents_single_ne "IO" "CPU" "end" p.pid s.time (by decide))
    · simp only [ledger_some, ledger_none, pending, optList_some, optList_none,
        sumF_one, sumF_nil, sumF_append, endSum_append, startSum_append,
        endSum_single, startSum_single, hb] at hledC ⊢
      simp only [show (("CPU" : String) == "CPU" && ("end" : String) == "end") = true
          from by decide,
        show (("CPU" : String) == "CPU" && ("end" : String) == "start") = false
          from by decide, Bool.false_eq_true, eq_self_iff_true, if_true, if_false]
      rw [hfC]
      linarith
    · simp only [ledger, pending, optList_some, optList_none, sumF_one, sumF_nil,
        sumF_append, endSum_append, startSum_append, endSum_single,
        startSum_single, hb] at hledI ⊢
      simp only [show (("CPU" : String) == "IO" && ("end" : String) == "end") = false
          from by decide,
        show (("CPU" : String) == "IO" && ("end" : String) == "start") = false
          from by decide, Bool.false_eq_true, if_false]
      rw [hfI]
      linarith

theorem mid_io_phase {w : List Process} {s s₁ : SimState}
    (hI : CpuMid w s) (h : io_phase s = some s₁) : BothMid w s₁ := by
  obtain ⟨hC, hledC, hledI⟩ := hI
  rcases io_phase_cases h with ⟨hb, rfl⟩ | ⟨p, hb, h1, rfl⟩ |
    ⟨p, hb, h1, hin, hlen, rfl⟩ | ⟨p, hb, h1, hlt, hroute, rfl⟩ |
    ⟨p, hb, h1, hlt, hroute, rfl⟩
  · -- IO idle
    refine ⟨hC, hledC, ?_⟩
    rw [hb, ledger_none] at hledI
    rw [hb, ledger_none]
    exact hledI
  all_goals
    have hgp := hC.good p (io_mem_allProcs hb)
    have hcur : curRes p = "IO" := hC.ib_io p (mem_optList.mpr hb)
  · -- IO busy with work left
    have hfI : futureWork "IO" (decRem p) = futureWork "IO" p - 1 := by
      rw [futureWork_decRem, if_pos hcur]
    have hfC : futureWork "CPU" (decRem p) = futureWork "CPU" p := by
      rw [futureWork_decRem, if_neg (by rw [hcur]; decide)]; ring
    refine ⟨⟨?_, ?_, ?_, ?_, ?_, ?_, ?_, ?_, ?_, ?_⟩, ?_, ?_⟩
    · intro q hq
      rw [mem_allProcs_iff] at hq
      rcases hq with hq | hq | hq | hq
      · exact hC.good q (ready_mem_allProcs hq)
      · exact hC.good q (ioq_mem_allProcs hq)
      · exact hC.good q (cpu_mem_allProcs hq)
      · cases Option.some.inj hq
        exact good_decRem hgp h1
    · exact hC.rq_cpu
    · exact hC.cb_cpu
    · exact hC.iq_io
    · intro q hq
      rw [mem_optList] at hq
      cases Option.some.inj hq
      rw [curRes_decRem]
      exact hcur
    · exact hC.sorted
    · exact hC.bounded
    · exact hC.resOK
    · exact hC.shapeC
    · exact shape_pid "IO" p (decRem p) s.events (hb ▸ hC.shapeI) (pid_decRem p)
    · simp only [ledger, pending, optList_some, sumF_one, hb] at hledC ⊢
      rw [hfC]
      linarith
    · simp only [ledger_some, pending, optList_some, sumF_one, hb] at hledI ⊢
      rw [hfI]
      linarith
  · -- IO busy, last segment completes
    have hrem1 : p.remaining = 1 := by have h2 := hgp.2.1; omega
    have hfI : futureWork "IO" p = 1 := by
      rw [futureWork_last "IO" p hlen.le, if_pos hcur, hrem1]
    have hfC : futureWork "CPU" p = 0 := by
      rw [futureWork_last "CPU" p hlen.le, if_neg (by rw [hcur]; decide)]
    refine ⟨⟨?_, ?_, ?_, ?_, ?_, ?_, ?_, ?_, ?_, ?_⟩, ?_, ?_⟩
    · intro q hq
      rw [mem_allProcs_iff] at hq
      rcases hq with hq | hq | hq | hq
      · exact hC.good q (ready_mem_allProcs hq)
      · exact hC.good q (ioq_mem_allProcs hq)
      · exact hC.good q (cpu_mem_allProcs hq)
      · exact absurd hq (by simp)
    · exact hC.rq_cpu
    · exact hC.cb_cpu
    · exact hC.iq_io
    · intro q hq
      rw [mem_optList] at hq
      exact absurd hq (by simp)
    · exact sorted_snoc _ _ hC.sorted (fun x hx => hC.bounded x hx)
    · intro e he
      rcases List.mem_append.mp he with he | he
      · exact hC.bounded e he
      · simp only [List.mem_singleton] at he
        subst he
        exact le_refl _
    · intro e he
      rcases List.mem_append.mp he with he | he
      · exact hC.resOK e he
      · simp only [List.mem_singleton] at he
        subst he
        exact Or.inr rfl
    · exact shape_skip "CPU" s.cpu_busy s.events _ hC.shapeC
        (resEvents_single_ne "CPU" "IO" "end" p.pid s.time (by decide))
    · exact shape_close "IO" p s.events s.time (hb ▸ hC.shapeI)
    · simp only [ledger, pending, optList_some, optList_none, sumF_one, sumF_nil,
        endSum_append, startSum_append, endSum_single, startSum_single, hb] at hledC ⊢
      simp only [show (("IO" : String) == "CPU" && ("end" : String) == "end") = false
          from by decide,
        show (("IO" : String) == "CPU" && ("end" : String) == "start") = false
          from by decide, Bool.false_eq_true, if_false]
      linarith
    · simp only [ledger_some, ledger_none, pending, optList_some, optList_none,
        sumF_one, sumF_nil, endSum_append, startSum_append, endSum_single,
        startSum_single, hb] at hledI ⊢
      simp only [show (("IO" : String) == "IO" && ("end" : String) == "end") = true
          from by decide,
        show (("IO" : String) == "IO" && ("end" : String) == "start") = false
          from by decide, Bool.false_eq_true, eq_self_iff_true, if_true, if_false]
      linarith
  · -- IO busy, segment completes, next segment routed to the IO queue
    have hrem1 : p.remaining = 1 := by have h2 := hgp.2.1; omega
    have hfI : futureWork "IO" (advanceP p) = futureWork "IO" p - 1 := by
      rw [futureWork_advanceP "IO" p hlt, if_pos hcur, hrem1]
    have hfC : futureWork "CPU" (advanceP p) = futureWork "CPU" p := by
      rw [futureWork_advanceP "CPU" p hlt, if_neg (by rw [hcur]; decide)]; ring
    refine ⟨⟨?_, ?_, ?_, ?_, ?_, ?_, ?_, ?_, ?_, ?_⟩, ?_, ?_⟩
    · intro q hq
      rw [mem_allProcs_iff] at hq
      rcases hq with hq | hq | hq | hq
      · exact hC.good q (ready_mem_allProcs hq)
      · rcases List.mem_append.mp hq with hq | hq
        · exact hC.good q (ioq_mem_allProcs hq)
        · simp only [List.mem_singleton] at hq
          subst hq
          exact good_advanceP hgp hlt
      · exact hC.good q (cpu_mem_allProcs hq)
      · exact absurd hq (by simp)
    · exact hC.rq_cpu
    · exact hC.cb_cpu
    · intro q hq
      rcases List.mem_append.mp hq with hq | hq
      · exact hC.iq_io q hq
      · simp only [List.mem_singleton] at hq
        subst hq
        exact hroute
    · intro q hq
      rw [mem_optList] at hq
      exact absurd hq (by simp)
    · exact sorted_snoc _ _ hC.sorted (fun x hx => hC.bounded x hx)
    · intro e he
      rcases List.mem_append.mp he with he | he
      · exact hC.bounded e he
      · simp only [List.mem_singleton] at he
        subst he
        exact le_refl _
    · intro e he
      rcases List.mem_append.mp he with he | he
      · exact hC.resOK e he
      · simp only [List.mem_singleton] at he
        subst he
        exact Or.inr rfl
    · exact shape_skip "CPU" s.cpu_busy s.events _ hC.shapeC
        (resEvents_single_ne "CPU" "IO" "end" p.pid s.time (by decide))
    · exact shape_close "IO" p s.events s.time (hb ▸ hC.shapeI)
    · simp only [ledger, pending, optList_some, optList_none, sumF_one, sumF_nil,
        sumF_append, endSum_append, startSum_append, endSum_single,
        startSum_single, hb] at hledC ⊢
      simp only [show (("IO" : String) == "CPU" && ("end" : String) == "end") = false
          from by decide,
        show (("IO" : String) == "CPU" && ("end" : String) == "start") = false
          from by decide, Bool.false_eq_true, if_false]
      rw [hfC]
      linarith
    · simp only [ledger_some, ledger_none, pending, optList_some, optList_none,
        sumF_one, sumF_nil, sumF_append, endSum_append, startSum_append,
        endSum_single, startSum_single, hb] at hledI ⊢
      simp only [show (("IO" : String) == "IO" && ("end" : String) == "end") = true
          from by decide,
        show (("IO" : String) == "IO" && ("end" : String) == "start") = false
          from by decide, Bool.false_eq_true, eq_self_iff_true, if_true, if_false]
      rw [hfI]
      linarith
  · -- IO busy, segment completes, next segment routed to the ready queue
    have hrem1 : p.remaining = 1 := by have h2 := hgp.2.1; omega
    have hfI : futureWork "IO" (advanceP p) = futureWork "IO" p - 1 := by
      rw [futureWork_advanceP "IO" p hlt, if_pos hcur, hrem1]
    have hfC : futureWork "CPU" (advanceP p) = futureWork "CPU" p := by
      rw [futureWork_advanceP "CPU" p hlt, if_neg (by rw [hcur]; decide)]; ring
    refine ⟨⟨?_, ?_, ?_, ?_, ?_, ?_, ?_, ?_, ?_, ?_⟩, ?_, ?_⟩
    · intro q hq
      rw [mem_allProcs_iff] at hq
      rcases hq with hq | hq | hq | hq
      · rcases List.mem_append.mp hq with hq | hq
        · exact hC.good q (ready_mem_allProcs hq)
        · simp only [List.mem_singleton] at hq
          subst hq
          exact good_advanceP hgp hlt
      · exact hC.good q (ioq_mem_allProcs hq)
      · exact hC.good q (cpu_mem_allProcs hq)
      · exact absurd hq (by simp)
    · intro q hq
      rcases List.mem_append.mp hq with hq | hq
      · exact hC.rq_cpu q hq
      · simp only [List.mem_singleton] at hq
        subst hq
        exact hroute
    · exact hC.cb_cpu
    · exact hC.iq_io
    · intro q hq
      rw [mem_optList] at hq
      exact absurd hq (by simp)
    · exact sorted_snoc _ _ hC.sorted (fun x hx => hC.bounded x hx)
    · intro e he
      rcases List.mem_append.mp he with he | he
      · exact hC.bounded e he
      · simp only [List.mem_singleton] at he
        subst he
        exact le_refl _
    · intro e he
      rcases List.mem_append.mp he with he | he
      · exact hC.resOK e he
      · simp only [List.mem_singleton] at he
        subst he
        exact Or.inr rfl
    · exact shape_skip "CPU" s.cpu_busy s.events _ hC.shapeC
        (resEvents_single_ne "CPU" "IO" "end" p.pid s.time (by decide))
    · exact shape_close "IO" p s.events s.time (hb ▸ hC.shapeI)
    · simp only [ledger, pending, optList_some, optList_none, sumF_one, sumF_nil,
        sumF_append, endSum_append, startSum_append, endSum_single,
        startSum_single, hb] at hledC ⊢
      simp only [show (("IO" : String) == "CPU" && ("end" : String) == "end") = false
          from by decide,
        show (("IO" : String) == "CPU" && ("end" : String) == "start") = false
          from by decide, Bool.false_eq_true, if_false]
      rw [hfC]
      linarith
    · simp only [ledger_some, ledger_none, pending, optList_some, optList_none,
        sumF_one, sumF_nil, sumF_append, endSum_append, startSum_append,
        endSum_single, startSum_single, hb] at hledI ⊢
      simp only [show (("IO" : String) == "IO" && ("end" : String) == "end") = true
          from by decide,
        show (("IO" : String) == "IO" && ("end" : String) == "start") = false
          from by decide, Bool.false_eq_true, eq_self_iff_true, if_true, if_false]
      rw [hfI]
      linarith

theorem mid_schedule_cpu {w : List Process} {s : SimState}
    (hI : BothMid w s) : BothMid w (schedule_cpu s) := by
  obtain ⟨hC, hledC, hledI⟩ := hI
  cases hb : s.cpu_busy with
  | some p => rw [schedule_cpu_of_busy hb]; exact ⟨hC, hledC, hledI⟩
  | none =>
      cases hq : s.ready_queue with
      | nil => rw [schedule_cpu_of_nil hq]; exact ⟨hC, hledC, hledI⟩
      | cons q rest =>
          rw [schedule_cpu_pop hb hq]
          have hqm : q ∈ s.ready_queue := by rw [hq]; exact List.mem_cons_self q rest
          refine ⟨⟨?_, ?_, ?_, ?_, ?_, ?_, ?_, ?_, ?_, ?_⟩, ?_, ?_⟩
          · intro x hx
            rw [mem_allProcs_iff] at hx
            rcases hx with hx | hx | hx | hx
            · exact hC.good x (ready_mem_allProcs (by rw [hq]; exact List.mem_cons_of_mem q hx))
            · exact hC.good x (ioq_mem_allProcs hx)
            · cases Option.some.inj hx
              exact hC.good q (ready_mem_allProcs hqm)
            · exact hC.good x (io_mem_allProcs hx)
          · intro x hx
            exact hC.rq_cpu x (by rw [hq]; exact List.mem_cons_of_mem q hx)
          · intro x hx
            rw [mem_optList] at hx
            cases Option.some.inj hx
            exact hC.rq_cpu q hqm
          · exact hC.iq_io
          · exact hC.ib_io
          · exact sorted_snoc _ _ hC.sorted (fun x hx => hC.bounded x hx)
          · intro e he
            rcases List.mem_append.mp he with he | he
            · exact hC.bounded e he
            · simp only [List.mem_singleton] at he
              subst he
              exact le_refl _
          · intro e he
            rcases List.mem_append.mp he with he | he
            · exact hC.resOK e he
            · simp only [List.mem_singleton] at he
              subst he
              exact Or.inl rfl
          · exact shape_open "CPU" q s.events s.time (hb ▸ hC.shapeC)
          · exact shape_skip "IO" s.io_busy s.events _ hC.shapeI
              (resEvents_single_ne "IO" "CPU" "start" q.pid s.time (by decide))
          · simp only [ledger_some, ledger_none, pending, optList_some, optList_none,
              sumF_one, sumF_nil, endSum_append, startSum_append, endSum_single,
              startSum_single, hb, hq, sumF_cons] at hledC ⊢
            simp only [show (("CPU" : String) == "CPU" && ("start" : String) == "end") = false
                from by decide,
              show (("CPU" : String) == "CPU" && ("start" : String) == "start") = true
                from by decide, Bool.false_eq_true, eq_self_iff_true, if_true, if_false]
            linarith
          · simp only [ledger, pending, optList_some, optList_none,
              sumF_one, sumF_nil, endSum_append, startSum_append, endSum_single,
              startSum_single, hb, hq, sumF_cons] at hledI ⊢
            simp only [show (("CPU" : String) == "IO" && ("start" : String) == "end") = false
                from by decide,
              show (("CPU" : String) == "IO" && ("start" : String) == "start") = false
                from by decide, Bool.false_eq_true, if_false]
            linarith

theorem mid_schedule_io {w : List Process} {s : SimState}
    (hI : BothMid w s) : BothMid w (schedule_io s) := by
  obtain ⟨hC, hledC, hledI⟩ := hI
  cases hb : s.io_busy with
  | some p => rw [schedule_io_of_busy hb]; exact ⟨hC, hledC, hledI⟩
  | none =>
      cases hq : s.io_queue with
      | nil => rw [schedule_io_of_nil hq]; exact ⟨hC, hledC, hledI⟩
      | cons q rest =>
          rw [schedule_io_pop hb hq]
          have hqm : q ∈ s.io_queue := by rw [hq]; exact List.mem_cons_self q rest
          refine ⟨⟨?_, ?_, ?_, ?_, ?_, ?_, ?_, ?_, ?_, ?_⟩, ?_, ?_⟩
          · intro x hx
            rw [mem_allProcs_iff] at hx
            rcases hx with hx | hx | hx | hx
            · exact hC.good x (ready_mem_allProcs hx)
            · exact hC.good x (ioq_mem_allProcs (by rw [hq]; exact List.mem_cons_of_mem q hx))
            · exact hC.good x (cpu_mem_allProcs hx)
            · cases Option.some.inj hx
              exact hC.good q (ioq_mem_allProcs hqm)
          · exact hC.rq_cpu
          · exact hC.cb_cpu
          · intro x hx
            exact hC.iq_io x (by rw [hq]; exact List.mem_cons_of_mem q hx)
          · intro x hx
            rw [mem_optList] at hx
            cases Option.some.inj hx
            exact hC.iq_io q hqm
          · exact sorted_snoc _ _ hC.sorted (fun x hx => hC.bounded x hx)
          · intro e he
            rcases List.mem_append.mp he with he | he
            · exact hC.bounded e he
            · simp only [List.mem_singleton] at he
              subst he
              exact le_refl _
          · intro e he
            rcases List.mem_append.mp he with he | he
            · exact hC.resOK e he
            · simp only [List.mem_singleton] at he
              subst he
              exact Or.inr rfl
          · exact shape_skip "CPU" s.cpu_busy s.events _ hC.shapeC
              (resEvents_single_ne "CPU" "IO" "start" q.pid s.time (by decide))
          · exact shape_open "IO" q s.events s.time (hb ▸ hC.shapeI)
          · simp only [ledger, pending, optList_some, optList_none,
              sumF_one, sumF_nil, endSum_append, startSum_append, endSum_single,
              startSum_single, hb, hq, sumF_cons] at hledC ⊢
            simp only [show (("IO" : String) == "CPU" && ("start" : String) == "end") = false
                from by decide,
              show (("IO" : String) == "CPU" && ("start" : String) == "start") = false
                from by decide, Bool.false_eq_true, if_false]
            linarith
          · simp only [ledger_some, ledger_none, pending, optList_some, optList_none,
              sumF_one, sumF_nil, endSum_append, startSum_append, endSum_single,
              startSum_single, hb, hq, sumF_cons] at hledI ⊢
            simp only [show (("IO" : String) == "IO" && ("start" : String) == "end") = false
                from by decide,
              show (("IO" : String) == "IO" && ("start" : String) == "start") = true
                from by decide, Bool.false_eq_true, eq_self_iff_true, if_true, if_false]
            linarith

theorem mid_tick {w : List Process} {s : SimState}
    (hI : BothMid w s) : Inv w { s with time := s.time + 1 } := by
  obtain ⟨hC, hledC, hledI⟩ := hI
  have ht : ((s.time + 1 : Nat) : Int) - 1 = (s.time : Int) := by push_cast; ring
  refine ⟨⟨hC.good, hC.rq_cpu, hC.cb_cpu, hC.iq_io, hC.ib_io, hC.sorted, ?_,
    hC.resOK, hC.shapeC, hC.shapeI⟩, ?_, ?_⟩
  · intro e he
    exact le_trans (hC.bounded e he) (Nat.le_succ _)
  · show ledger "CPU" s.cpu_busy s.events (((s.time + 1 : Nat) : Int) - 1) +
      pending "CPU" s = totalWork "CPU" w
    rw [ht]
    exact hledC
  · show ledger "IO" s.io_busy s.events (((s.time + 1 : Nat) : Int) - 1) +
      pending "IO" s = totalWork "IO" w
    rw [ht]
    exact hledI

theorem midState_cases {s m : SimState} (h : midState s = some m) :
    ∃ s₁, cpu_phase s = some s₁ ∧ io_phase s₁ = some m := by
  unfold midState at h
  cases hc : cpu_phase s with
  | none => rw [hc] at h; exact absurd h (by simp)
  | some s₁ => rw [hc] at h; exact ⟨s₁, rfl, h⟩

theorem inv_step {w : List Process} {s s' : SimState}
    (hI : Inv w s) (h : simulate_step s = some s') : Inv w s' := by
  rw [simulate_step_eq] at h
  cases hm : midState s with
  | none => rw [hm] at h; exact absurd h (by simp)
  | some m =>
      rw [hm] at h
      simp only [Option.map_some', Option.some.injEq] at h
      obtain ⟨s₁, h1, h2⟩ := midState_cases hm
      rw [← h]
      exact mid_tick (mid_schedule_io (mid_schedule_cpu
        (mid_io_phase (inv_cpu_phase hI h1) h2)))

theorem getD_mem_of_lt {l : List Segment} {i : Nat} (h : i < l.length) :
    l.getD i ⟨"", 0⟩ ∈ l := by
  rw [List.getD_eq_getElem _ _ h]
  exact List.getElem_mem h

theorem start_next_of_valid {p : Process} (hv : ValidProc p) :
    (start_next p).1 =
      { p with remaining := (p.segments.getD p.current_index ⟨"", 0⟩).duration } := by
  obtain ⟨hne, hdur, hidx⟩ := hv
  have hlt : p.current_index < p.segments.length := by
    rw [hidx]
    exact List.length_pos.mpr hne
  rw [start_next, if_pos hlt]

theorem good_start_next {p : Process} (hv : ValidProc p) :
    GoodProc (start_next p).1 := by
  have hs := start_next_of_valid hv
  obtain ⟨hne, hdur, hidx⟩ := hv
  have hlt : p.current_index < p.segments.length := by
    rw [hidx]
    exact List.length_pos.mpr hne
  rw [hs]
  exact ⟨hlt, hdur _ (getD_mem_of_lt hlt), hdur⟩

theorem curRes_start_next {p : Process} (hv : ValidProc p) :
    curRes (start_next p).1 = "CPU" := by
  have hs := start_next_of_valid hv
  rw [hs, curRes]
  simp [hv.2.2]

theorem inv_init {w : List Process} (hw : ValidWorkload w) :
    Inv w (initializeSim w) := by
  refine ⟨⟨?_, ?_, ?_, ?_, ?_, ?_, ?_, ?_, ?_, ?_⟩, ?_, ?_⟩
  · intro q hq
    simp only [mem_allProcs_iff, initializeSim, List.mem_map] at hq
    simp only [List.not_mem_nil, or_false, false_or] at hq
    rcases hq with ⟨p, hp, rfl⟩ | hq | hq
    · exact good_start_next (hw p hp)
    · exact absurd hq (by simp)
    · exact absurd hq (by simp)
  · intro q hq
    simp only [initializeSim, List.mem_map] at hq
    obtain ⟨p, hp, rfl⟩ := hq
    exact curRes_start_next (hw p hp)
  · intro q hq
    rw [mem_optList] at hq
    exact absurd hq (by simp [initializeSim])
  · intro q hq
    exact absurd hq (by simp [initializeSim])
  · intro q hq
    rw [mem_optList] at hq
    exact absurd hq (by simp [initializeSim])
  · simp [initializeSim]
  · simp [initializeSim]
  · simp [initializeSim]
  · exact ⟨[], by simp [initializeSim, resEvents, pairsFlat]⟩
  · exact ⟨[], by simp [initializeSim, resEvents, pairsFlat]⟩
  · simp only [initializeSim, ledger_none, pending, optList_none, sumF_nil,
      sumF, totalWork, endSum, startSum, List.map_map, List.map_nil,
      List.sum_nil]
    rw [show (futureWork "CPU" ∘ fun p => (start_next p).1) =
      (fun p => futureWork "CPU" (start_next p).1) from rfl]
    ring
  · simp only [initializeSim, ledger_none, pending, optList_none, sumF_nil,
      sumF, totalWork, endSum, startSum, List.map_map, List.map_nil,
      List.sum_nil]
    rw [show (futureWork "IO" ∘ fun p => (start_next p).1) =
      (fun p => futureWork "IO" (start_next p).1) from rfl]
    ring

theorem inv_iterN {w : List Process} :
    ∀ (n : Nat) {t s : SimState}, Inv w t → iterN n t = some s → Inv w s := by
  intro n
  induction n with
  | zero =>
      intro t s hI h
      rw [iterN] at h
      exact (Option.some.inj h) ▸ hI
  | succ n ih =>
      intro t s hI h
      rw [iterN] at h
      by_cases hr : running t
      · rw [if_pos hr] at h
        cases hstep : simulate_step t with
        | none => rw [hstep] at h; exact absurd h (by simp)
        | some t' => rw [hstep] at h; exact ih (inv_step hI hstep) h
      · rw [if_neg hr] at h
        exact (Option.some.inj h) ▸ hI

theorem inv_reachable {w : List Process} {s : SimState}
    (hw : ValidWorkload w) (hr : ReachableFrom w s) : Inv w s := by
  obtain ⟨n, hn⟩ := hr
  exact inv_iterN n (inv_init hw) hn

theorem step_progress {w : List Process} {s : SimState} (hI : Inv w s) :
    ∃ s', simulate_step s = some s' := by
  obtain ⟨hC, -, -⟩ := hI
  obtain ⟨s₁, h1⟩ := cpu_phase_progress s
    (fun p hp => (hC.good p (cpu_mem_allProcs hp)).1)
  have hio_eq : s₁.io_busy = s.io_busy := by
    rcases cpu_phase_cases h1 with ⟨_, rfl⟩ | ⟨p, _, _, rfl⟩ |
      ⟨p, _, _, _, _, rfl⟩ | ⟨p, _, _, _, _, rfl⟩ | ⟨p, _, _, _, _, rfl⟩ <;> rfl
  obtain ⟨s₂, h2⟩ := io_phase_progress s₁ (fun p hp => by
    rw [hio_eq] at hp
    exact (hC.good p (io_mem_allProcs hp)).1)
  have hm : midState s = some s₂ := by
    unfold midState
    rw [h1]
    exact h2
  exact ⟨_, by rw [simulate_step_eq, hm]; rfl⟩

/-! Preservation of pid distinctness. -/

theorem nodup_cpu_phase {s s₁ : SimState} (h : cpu_phase s = some s₁)
    (hn : NodupPids s) : NodupPids s₁ := by
  rcases cpu_phase_cases h with ⟨hb, rfl⟩ | ⟨p, hb, _, rfl⟩ |
    ⟨p, hb, _, _, _, rfl⟩ | ⟨p, hb, _, _, _, rfl⟩ | ⟨p, hb, _, _, _, rfl⟩
  · exact hn
  all_goals
    unfold NodupPids at hn ⊢
    simp only [allProcs, optList, hb, List.map_append, List.append_assoc,
      List.map_cons, List.map_nil, List.nil_append, List.append_nil,
      List.singleton_append, pid_advanceP, decRem] at hn ⊢
  · exact hn
  · refine List.Nodup.sublist ?_ hn
    refine List.Sublist.append_left ?_ _
    refine List.Sublist.append_left ?_ _
    exact List.Sublist.cons _ (List.Sublist.refl _)
  · exact hn
  · refine List.Perm.nodup ?_ hn
    refine (List.Perm.append_left _ ?_).symm
    exact List.perm_middle.symm

theorem nodup_io_phase {s s₁ : SimState} (h : io_phase s = some s₁)
    (hn : NodupPids s) : NodupPids s₁ := by
  rcases io_phase_cases h with ⟨hb, rfl⟩ | ⟨p, hb, _, rfl⟩ |
    ⟨p, hb, _, _, _, rfl⟩ | ⟨p, hb, _, _, _, rfl⟩ | ⟨p, hb, _, _, _, rfl⟩
  · exact hn
  all_goals
    unfold NodupPids at hn ⊢
    simp only [allProcs, optList, hb, List.map_append, List.append_assoc,
      List.map_cons, List.map_nil, List.nil_append, List.append_nil,
      List.singleton_append, pid_advanceP, decRem] at hn ⊢
  · exact hn
  · refine List.Nodup.sublist ?_ hn
    refine List.Sublist.append_left ?_ _
    refine List.Sublist.append_left ?_ _
    exact List.sublist_append_left _ _
  · refine List.Perm.nodup ?_ hn
    refine List.Perm.append_left _ ?_
    refine List.Perm.append_left _ ?_
    exact List.perm_append_singleton _ _
  · refine List.Perm.nodup ?_ hn
    refine List.Perm.append_left _ ?_
    exact ((List.Perm.append_left _ (List.perm_append_singleton _ _)).trans
      List.perm_middle)

theorem nodup_schedule_cpu {s : SimState} (hn : NodupPids s) :
    NodupPids (schedule_cpu s) := by
  cases hb : s.cpu_busy with
  | some p => rw [schedule_cpu_of_busy hb]; exact hn
  | none =>
      cases hq : s.ready_queue with
      | nil => rw [schedule_cpu_of_nil hq]; exact hn
      | cons q rest =>
          rw [schedule_cpu_pop hb hq]
          unfold NodupPids at hn ⊢
          simp only [allProcs, optList, hb, hq, List.map_append, List.append_assoc,
            List.map_cons, List.map_nil, List.nil_append, List.append_nil,
            List.singleton_append] at hn ⊢
          refine List.Perm.nodup ?_ hn
          exact ((List.Perm.append_left _ List.perm_middle).trans
            List.perm_middle).symm

theorem nodup_schedule_io {s : SimState} (hn : NodupPids s) :
    NodupPids (schedule_io s) := by
  cases hb : s.io_busy with
  | some p => rw [schedule_io_of_busy hb]; exact hn
  | none =>
      cases hq : s.io_queue with
      | nil => rw [schedule_io_of_nil hq]; exact hn
      | cons q rest =>
          rw [schedule_io_pop hb hq]
          unfold NodupPids at hn ⊢
          simp only [allProcs, optList, hb, hq, List.map_append, List.append_assoc,
            List.map_cons, List.map_nil, List.nil_append, List.append_nil,
            List.singleton_append] at hn ⊢
          refine List.Perm.nodup ?_ hn
          refine List.Perm.append_left _ ?_
          exact ((List.Perm.append_left _ (List.perm_append_singleton _ _)).trans
            List.perm_middle).symm

theorem nodup_step {s s' : SimState} (h : simulate_step s = some s')
    (hn : NodupPids s) : NodupPids s' := by
  rw [simulate_step_eq] at h
  cases hm : midState s with
  | none => rw [hm] at h; exact absurd h (by simp)
  | some m =>
      rw [hm] at h
      simp only [Option.map_some', Option.some.injEq] at h
      obtain ⟨s₁, h1, h2⟩ := midState_cases hm
      rw [← h]
      have : NodupPids (schedule_io (schedule_cpu m)) :=
        nodup_schedule_io (nodup_schedule_cpu (nodup_io_phase h2 (nodup_cpu_phase h1 hn)))
      exact this

theorem nodup_init {w : List Process} (hw : (w.map Process.pid).Nodup) :
    NodupPids (initializeSim w) := by
  unfold NodupPids
  have hcomp : (Process.pid ∘ fun p => (start_next p).1) = Process.pid := by
    funext q
    show ((start_next q).1).pid = q.pid
    rw [start_next]
    split <;> rfl
  have he : (allProcs (initializeSim w)).map Process.pid = w.map Process.pid := by
    simp only [allProcs, initializeSim, optList, List.append_nil, List.map_map,
      List.map_nil]
    rw [hcomp]
  rw [he]
  exact hw

theorem nodup_iterN {n : Nat} {t s : SimState}
    (hn : NodupPids t) (h : iterN n t = some s) : NodupPids s := by
  induction n generalizing t with
  | zero =>
      rw [iterN] at h
      exact (Option.some.inj h) ▸ hn
  | succ n ih =>
      rw [iterN] at h
      by_cases hr : running t
      · rw [if_pos hr] at h
        cases hstep : simulate_step t with
        | none => rw [hstep] at h; exact absurd h (by simp)
        | some t' => rw [hstep] at h; exact ih (nodup_step hstep hn) h
      · rw [if_neg hr] at h
        exact (Option.some.inj h) ▸ hn

theorem nodup_reachable {w : List Process} {s : SimState}
    (hw : (w.map Process.pid).Nodup) (hr : ReachableFrom w s) : NodupPids s := by
  obtain ⟨n, hn⟩ := hr
  exact nodup_iterN (nodup_init hw) hn

theorem cpu_phase_io_busy {s s₁ : SimState} (h : cpu_phase s = some s₁) :
    s₁.io_busy = s.io_busy := by
  rcases cpu_phase_cases h with ⟨_, rfl⟩ | ⟨p, _, _, rfl⟩ |
    ⟨p, _, _, _, _, rfl⟩ | ⟨p, _, _, _, _, rfl⟩ | ⟨p, _, _, _, _, rfl⟩ <;> rfl

theorem io_phase_cpu_busy {s s₁ : SimState} (h : io_phase s = some s₁) :
    s₁.cpu_busy = s.cpu_busy := by
  rcases io_phase_cases h with ⟨_, rfl⟩ | ⟨p, _, _, rfl⟩ |
    ⟨p, _, _, _, _, rfl⟩ | ⟨p, _, _, _, _, rfl⟩ | ⟨p, _, _, _, _, rfl⟩ <;> rfl

theorem schedule_io_cpu_busy (s : SimState) :
    (schedule_io s).cpu_busy = s.cpu_busy := by
  cases hb : s.io_busy <;> cases hq : s.io_queue <;> simp [schedule_io, hb, hq]

theorem schedule_cpu_io_busy (s : SimState) :
    (schedule_cpu s).io_busy = s.io_busy := by
  cases hb : s.cpu_busy <;> cases hq : s.ready_queue <;> simp [schedule_cpu, hb, hq]

theorem cpu_phase_time {s s₁ : SimState} (h : cpu_phase s = some s₁) :
    s₁.time = s.time := by
  rcases cpu_phase_cases h with ⟨_, rfl⟩ | ⟨p, _, _, rfl⟩ |
    ⟨p, _, _, _, _, rfl⟩ | ⟨p, _, _, _, _, rfl⟩ | ⟨p, _, _, _, _, rfl⟩ <;> rfl

theorem io_phase_time {s s₁ : SimState} (h : io_phase s = some s₁) :
    s₁.time = s.time := by
  rcases io_phase_cases h with ⟨_, rfl⟩ | ⟨p, _, _, rfl⟩ |
    ⟨p, _, _, _, _, rfl⟩ | ⟨p, _, _, _, _, rfl⟩ | ⟨p, _, _, _, _, rfl⟩ <;> rfl

theorem schedule_cpu_ioq (s : SimState) :
    (schedule_cpu s).io_queue = s.io_queue := by
  cases hb : s.cpu_busy <;> cases hq : s.ready_queue <;> simp [schedule_cpu, hb, hq]

theorem schedule_io_ready (s : SimState) :
    (schedule_io s).ready_queue = s.ready_queue := by
  cases hb : s.io_busy <;> cases hq : s.io_queue <;> simp [schedule_io, hb, hq]

theorem cpu_phase_ready_ext {s s₁ : SimState} (h : cpu_phase s = some s₁) :
    ∃ ext, s₁.ready_queue = s.ready_queue ++ ext := by
  rcases cpu_phase_cases h with ⟨_, rfl⟩ | ⟨p, _, _, rfl⟩ |
    ⟨p, _, _, _, _, rfl⟩ | ⟨p, _, _, _, _, rfl⟩ | ⟨p, _, _, _, _, rfl⟩
  · exact ⟨[], by simp⟩
  · exact ⟨[], by simp⟩
  · exact ⟨[], by simp⟩
  · exact ⟨[], by simp⟩
  · exact ⟨[advanceP p], rfl⟩

theorem io_phase_ready_ext {s s₁ : SimState} (h : io_phase s = some s₁) :
    ∃ ext, s₁.ready_queue = s.ready_queue ++ ext := by
  rcases io_phase_cases h with ⟨_, rfl⟩ | ⟨p, _, _, rfl⟩ |
    ⟨p, _, _, _, _, rfl⟩ | ⟨p, _, _, _, _, rfl⟩ | ⟨p, _, _, _, _, rfl⟩
  · exact ⟨[], by simp⟩
  · exact ⟨[], by simp⟩
  · exact ⟨[], by simp⟩
  · exact ⟨[], by simp⟩
  · exact ⟨[advanceP p], rfl⟩

theorem cpu_phase_ioq_ext {s s₁ : SimState} (h : cpu_phase s = some s₁) :
    ∃ ext, s₁.io_queue = s.io_queue ++ ext := by
  rcases cpu_phase_cases h with ⟨_, rfl⟩ | ⟨p, _, _, rfl⟩ |
    ⟨p, _, _, _, _, rfl⟩ | ⟨p, _, _, _, _, rfl⟩ | ⟨p, _, _, _, _, rfl⟩
  · exact ⟨[], by simp⟩
  · exact ⟨[], by simp⟩
  · exact ⟨[], by simp⟩
  · exact ⟨[advanceP p], rfl⟩
  · exact ⟨[], by simp⟩

theorem io_phase_ioq_ext {s s₁ : SimState} (h : io_phase s = some s₁) :
    ∃ ext, s₁.io_queue = s.io_queue ++ ext := by
  rcases io_phase_cases h with ⟨_, rfl⟩ | ⟨p, _, _, rfl⟩ |
    ⟨p, _, _, _, _, rfl⟩ | ⟨p, _, _, _, _, rfl⟩ | ⟨p, _, _, _, _, rfl⟩
  · exact ⟨[], by simp⟩
  · exact ⟨[], by simp⟩
  · exact ⟨[], by simp⟩
  · exact ⟨[advanceP p], rfl⟩
  · exact ⟨[], by simp⟩

theorem final_step_ends {s s' : SimState} (hr : running s = true)
    (h : simulate_step s = some s') (ht : running s' = false) :
    ∃ l, s'.events = s.events ++ l ∧ l ≠ [] ∧
      (∀ e ∈ l, e.phase = "end" ∧ e.time = s.time) ∧ s'.time = s.time + 1 := by
  rw [simulate_step_eq] at h
  cases hm : midState s with
  | none => rw [hm] at h; exact absurd h (by simp)
  | some m =>
      rw [hm] at h
      simp only [Option.map_some', Option.some.injEq] at h
      obtain ⟨s₁, h1, h2⟩ := midState_cases hm
      subst h
      simp only [running, Bool.or_eq_false_iff, Bool.not_eq_true'] at ht
      obtain ⟨⟨⟨hrq, hiq⟩, hcb⟩, hib⟩ := ht
      replace hrq : (schedule_io (schedule_cpu m)).ready_queue = [] := by
        simpa [List.isEmpty_iff] using hrq
      replace hiq : (schedule_io (schedule_cpu m)).io_queue = [] := by
        simpa [List.isEmpty_iff] using hiq
      replace hcb : (schedule_io (schedule_cpu m)).cpu_busy = none :=
        Option.not_isSome_iff_eq_none.mp (by simp [hcb])
      replace hib : (schedule_io (schedule_cpu m)).io_busy = none :=
        Option.not_isSome_iff_eq_none.mp (by simp [hib])
      -- no CPU admission happened, so the mid CPU slot and ready queue are empty
      have hmcb : m.cpu_busy = none ∧ m.ready_queue = [] := by
        cases hb : m.cpu_busy with
        | some p =>
            exfalso
            have : (schedule_io (schedule_cpu m)).cpu_busy = some p := by
              rw [schedule_io_cpu_busy, schedule_cpu_of_busy hb]
              exact hb
            rw [hcb] at this
            exact absurd this (by simp)
        | none =>
            cases hq : m.ready_queue with
            | nil => exact ⟨rfl, rfl⟩
            | cons q rest =>
                exfalso
                have : (schedule_io (schedule_cpu m)).cpu_busy = some q := by
                  rw [schedule_io_cpu_busy, schedule_cpu_pop hb hq]
                rw [hcb] at this
                exact absurd this (by simp)
      have hmib : m.io_busy = none ∧ m.io_queue = [] := by
        have hcb2 : (schedule_cpu m).io_busy = m.io_busy := schedule_cpu_io_busy m
        have hq2 : (schedule_cpu m).io_queue = m.io_queue := schedule_cpu_ioq m
        cases hb : m.io_busy with
        | some p =>
            exfalso
            have : (schedule_io (schedule_cpu m)).io_busy = some p := by
              rw [schedule_io_of_busy (by rw [hcb2]; exact hb), hcb2]
              exact hb
            rw [hib] at this
            exact absurd this (by simp)
        | none =>
            cases hq : m.io_queue with
            | nil => exact ⟨rfl, rfl⟩
            | cons q rest =>
                exfalso
                have : (schedule_io (schedule_cpu m)).io_busy = some q := by
                  rw [schedule_io_pop (by rw [hcb2]; exact hb) (by rw [hq2]; exact hq)]
                rw [hib] at this
                exact absurd this (by simp)
      have hschedm : schedule_io (schedule_cpu m) = m := by
        rw [schedule_cpu_of_nil hmcb.2, schedule_io_of_nil hmib.2]
      rw [hschedm]
      -- mid state queues trace back to empty queues in s and s₁
      have hs1q : s₁.io_queue = [] ∧ s₁.ready_queue = [] := by
        obtain ⟨e1, he1⟩ := io_phase_ioq_ext h2
        obtain ⟨e2, he2⟩ := io_phase_ready_ext h2
        constructor
        · have := he1 ▸ hmib.2
          exact (List.append_eq_nil.mp this).1
        · have := he2 ▸ hmcb.2
          exact (List.append_eq_nil.mp this).1
      have hsq : s.io_queue = [] ∧ s.ready_queue = [] := by
        obtain ⟨e1, he1⟩ := cpu_phase_ioq_ext h1
        obtain ⟨e2, he2⟩ := cpu_phase_ready_ext h1
        constructor
        · have := he1 ▸ hs1q.1
          exact (List.append_eq_nil.mp this).1
        · have := he2 ▸ hs1q.2
          exact (List.append_eq_nil.mp this).1
      have ht1 : s₁.time = s.time := cpu_phase_time h1
      -- classify the IO phase: identity or a drop emitting an end event
      have hioalt : m.events = s₁.events ∧ s₁.io_busy = none ∨
          ∃ p : Process, m.events = s₁.events ++ [⟨"IO", p.pid, "end", s₁.time⟩] := by
        rcases io_phase_cases h2 with ⟨hb, rfl⟩ | ⟨p, hb, _, rfl⟩ |
          ⟨p, hb, _, _, _, rfl⟩ | ⟨p, hb, _, _, _, rfl⟩ | ⟨p, hb, _, _, _, rfl⟩
        · exact Or.inl ⟨rfl, hb⟩
        · exact absurd hmib.1 (by simp)
        · exact Or.inr ⟨p, rfl⟩
        · exfalso
          have := hmib.2
          simp at this
        · exfalso
          have := hmcb.2
          simp at this
      -- classify the CPU phase likewise
      have hib1 : s₁.io_busy = s.io_busy := cpu_phase_io_busy h1
      have hcpualt : s₁.events = s.events ∧ s.cpu_busy = none ∨
          ∃ p : Process, s₁.events = s.events ++ [⟨"CPU", p.pid, "end", s.time⟩] := by
        rcases cpu_phase_cases h1 with ⟨hb, rfl⟩ | ⟨p, hb, _, rfl⟩ |
          ⟨p, hb, _, _, _, rfl⟩ | ⟨p, hb, _, _, _, rfl⟩ | ⟨p, hb, _, _, _, rfl⟩
        · exact Or.inl ⟨rfl, hb⟩
        · exfalso
          have hmc : m.cpu_busy = some (decRem p) := by
            rw [io_phase_cpu_busy h2]
          rw [hmcb.1] at hmc
          exact absurd hmc (by simp)
        · exact Or.inr ⟨p, rfl⟩
        · exact Or.inr ⟨p, rfl⟩
        · exact Or.inr ⟨p, rfl⟩
      have htm : m.time = s.time := by rw [io_phase_time h2, ht1]
      rcases hcpualt with ⟨hev1, hcb0⟩ | ⟨p, hev1⟩
      · rcases hioalt with ⟨hev2, hib0⟩ | ⟨q, hev2⟩
        · exfalso
          rw [hib1] at hib0
          simp [running, hsq.1, hsq.2, hcb0, hib0] at hr
        · refine ⟨[⟨"IO", q.pid, "end", s.time⟩], ?_, by simp, ?_, ?_⟩
          · show m.events = _
            rw [hev2, hev1, ht1]
          · intro e he
            simp only [List.mem_singleton] at he
            subst he
            exact ⟨rfl, rfl⟩
          · show m.time + 1 = s.time + 1
            rw [htm]
      · rcases hioalt with ⟨hev2, hib0⟩ | ⟨q, hev2⟩
        · refine ⟨[⟨"CPU", p.pid, "end", s.time⟩], ?_, by simp, ?_, ?_⟩
          · show m.events = _
            rw [hev2, hev1]
          · intro e he
            simp only [List.mem_singleton] at he
            subst he
            exact ⟨rfl, rfl⟩
          · show m.time + 1 = s.time + 1
            rw [htm]
        · refine ⟨[⟨"CPU", p.pid, "end", s.time⟩, ⟨"IO", q.pid, "end", s.time⟩],
            ?_, by simp, ?_, ?_⟩
          · show m.events = _
            rw [hev2, hev1, ht1, List.append_assoc]
            rfl
          · intro e he
            simp only [List.mem_cons, List.mem_singleton, List.not_mem_nil,
              or_false] at he
            rcases he with rfl | rfl
            · exact ⟨rfl, rfl⟩
            · exact ⟨rfl, rfl⟩
          · show m.time + 1 = s.time + 1
            rw [htm]

theorem last_end_iter {n : Nat} {t s : SimState}
    (h : iterN n t = some s) (hJ : running t = true ∨ LastEnd t) :
    running s = true ∨ LastEnd s := by
  induction n generalizing t with
  | zero =>
      rw [iterN] at h
      exact (Option.some.inj h) ▸ hJ
  | succ n ih =>
      rw [iterN] at h
      by_cases hr : running t
      · rw [if_pos hr] at h
        cases hstep : simulate_step t with
        | none => rw [hstep] at h; exact absurd h (by simp)
        | some t' =>
            rw [hstep] at h
            refine ih h ?_
            by_cases hr' : running t'
            · exact Or.inl hr'
            · refine Or.inr ?_
              obtain ⟨l, hev, hne, hall, htime⟩ :=
                final_step_ends hr hstep (by simpa using hr')
              obtain ⟨l', a, rfl⟩ : ∃ l' a, l = l' ++ [a] := by
                rcases List.eq_nil_or_concat l with rfl | ⟨l', a, hl⟩
                · exact absurd rfl hne
                · exact ⟨l', a, by rw [hl, List.concat_eq_append]⟩
              refine ⟨a, ?_, ?_, ?_⟩
              · rw [hev, ← List.append_assoc, List.getLast?_concat]
              · exact (hall a (by simp)).1
              · rw [htime, (hall a (by simp)).2]
      · rw [if_neg hr] at h
        exact (Option.some.inj h) ▸ hJ

theorem terminal_empty {s : SimState} (ht : running s = false) :
    s.ready_queue = [] ∧ s.io_queue = [] ∧ s.cpu_busy = none ∧ s.io_busy = none := by
  simp only [running, Bool.or_eq_false_iff, Bool.not_eq_true'] at ht
  obtain ⟨⟨⟨h1, h2⟩, h3⟩, h4⟩ := ht
  exact ⟨by simpa [List.isEmpty_iff] using h1,
    by simpa [List.isEmpty_iff] using h2,
    Option.not_isSome_iff_eq_none.mp (by simp [h3]),
    Option.not_isSome_iff_eq_none.mp (by simp [h4])⟩

theorem endSum_cons (R : String) (e : Event) (l : List Event) :
    endSum R (e :: l) =
      (if e.res == R && e.phase == "end" then (e.time : Int) else 0) + endSum R l := by
  simp [endSum]

theorem startSum_cons (R : String) (e : Event) (l : List Event) :
    startSum R (e :: l) =
      (if e.res == R && e.phase == "start" then (e.time : Int) else 0) + startSum R l := by
  simp [startSum]

theorem endSum_resEvents (R : String) (l : List Event) :
    endSum R (resEvents R l) = endSum R l := by
  induction l with
  | nil => rfl
  | cons e l ih =>
      by_cases h : (e.res == R) = true
      · simp only [resEvents, List.filter_cons, h, if_true, endSum_cons] at ih ⊢
        rw [ih]
      · have h' : (e.res == R) = false := by simpa using h
        simp only [resEvents, List.filter_cons, h', Bool.false_eq_true, if_false,
          endSum_cons] at ih ⊢
        rw [ih]
        simp

theorem startSum_resEvents (R : String) (l : List Event) :
    startSum R (resEvents R l) = startSum R l := by
  induction l with
  | nil => rfl
  | cons e l ih =>
      by_cases h : (e.res == R) = true
      · simp only [resEvents, List.filter_cons, h, if_true, startSum_cons] at ih ⊢
        rw [ih]
      · have h' : (e.res == R) = false := by simpa using h
        simp only [resEvents, List.filter_cons, h', Bool.false_eq_true, if_false,
          startSum_cons] at ih ⊢
        rw [ih]
        simp

theorem endSum_pairsFlat (R : String) (pl : List (Int × Nat × Nat)) :
    endSum R (pairsFlat R pl) = (pl.map (fun q => (q.2.2 : Int))).sum := by
  induction pl with
  | nil => rfl
  | cons q rest ih =>
      obtain ⟨i, a, b⟩ := q
      rw [pairsFlat, endSum_cons, endSum_cons, ih]
      simp

theorem startSum_pairsFlat (R : String) (pl : List (Int × Nat × Nat)) :
    startSum R (pairsFlat R pl) = (pl.map (fun q => (q.2.1 : Int))).sum := by
  induction pl with
  | nil => rfl
  | cons q rest ih =>
      obtain ⟨i, a, b⟩ := q
      rw [pairsFlat, startSum_cons, startSum_cons, ih]
      simp

theorem pairSpanSum_eq (pl : List (Int × Nat × Nat)) :
    pairSpanSum pl = (pl.map (fun q => (q.2.2 : Int))).sum -
      (pl.map (fun q => (q.2.1 : Int))).sum := by
  induction pl with
  | nil => rfl
  | cons q rest ih =>
      obtain ⟨i, a, b⟩ := q
      simp only [pairSpanSum, List.map_cons, List.sum_cons] at ih ⊢
      rw [ih]
      ring

theorem kindSum_cons (R : String) (seg : Segment) (l : List Segment) :
    kindSum R (seg :: l) =
      (if seg.type == R then seg.duration else 0) + kindSum R l := by
  simp [kindSum]

theorem sumRoute_eq_kindSum (R : String) (hR : R = "CPU" ∨ R = "IO")
    (l : List Segment) (hl : ∀ seg ∈ l, seg.type = "CPU" ∨ seg.type = "IO") :
    sumRoute R l = kindSum R l := by
  induction l with
  | nil => rfl
  | cons seg rest ih =>
      rw [sumRoute_cons, kindSum_cons,
        ih (fun x hx => hl x (List.mem_cons_of_mem seg hx))]
      rcases hl seg (List.mem_cons_self seg rest) with hty | hty <;>
        rcases hR with rfl | rfl <;> rw [routeRes, hty] <;> simp

theorem totalWork_eq_totalKind (R : String) (hR : R = "CPU" ∨ R = "IO")
    {w : List Process} (hw : ValidWorkload w)
    (hfirst : ∀ p ∈ w, (p.segments.headD ⟨"", 0⟩).type = "CPU")
    (hkinds : ∀ p ∈ w, ∀ seg ∈ p.segments, seg.type = "CPU" ∨ seg.type = "IO") :
    totalWork R w = totalKind R w := by
  rw [totalWork, totalKind]
  congr 1
  apply List.map_congr_left
  intro p hp
  have hv := hw p hp
  rw [start_next_of_valid hv]
  obtain ⟨hne, hdur, hidx⟩ := hv
  obtain ⟨s₀, rest, hsegs⟩ : ∃ s₀ rest, p.segments = s₀ :: rest := by
    cases hs : p.segments with
    | nil => exact absurd hs hne
    | cons a l => exact ⟨a, l, rfl⟩
  have hty : s₀.type = "CPU" := by
    have := hfirst p hp
    rw [hsegs] at this
    simpa using this
  have hkrest : ∀ seg ∈ rest, seg.type = "CPU" ∨ seg.type = "IO" := by
    intro seg hseg
    exact hkinds p hp seg (by rw [hsegs]; exact List.mem_cons_of_mem s₀ hseg)
  rw [futureWork, curRes]
  simp only [hidx, if_pos, hsegs, List.getD_cons_zero, List.drop_succ_cons,
    List.drop_zero, kindSum_cons]
  rw [sumRoute_eq_kindSum R hR rest hkrest, hty]
  rcases hR with rfl | rfl <;> simp

theorem keyFilter_pairsFlat (R : String) (i : Int) (pl : List (Int × Nat × Nat)) :
    (pairsFlat R pl).filter (fun e => e.pid == i) =
      pairsFlat R (pl.filter (fun q => q.1 == i)) := by
  induction pl with
  | nil => rfl
  | cons q rest ih =>
      obtain ⟨j, a, b⟩ := q
      by_cases h : (j == i) = true
      · simp only [pairsFlat, List.filter_cons, h, if_true, ih]
      · have h' : (j == i) = false := by simpa using h
        simp only [pairsFlat, List.filter_cons, h', Bool.false_eq_true, if_false, ih]

/-! FIFO machinery: queue evolution across a tick, and the generic
first-in-first-out admission argument. -/

theorem mid_ready_ext {s m : SimState} (h : midState s = some m) :
    ∃ ext, m.ready_queue = s.ready_queue ++ ext := by
  obtain ⟨s₁, h1, h2⟩ := midState_cases h
  obtain ⟨e1, he1⟩ := cpu_phase_ready_ext h1
  obtain ⟨e2, he2⟩ := io_phase_ready_ext h2
  exact ⟨e1 ++ e2, by rw [he2, he1, List.append_assoc]⟩

theorem mid_ioq_ext {s m : SimState} (h : midState s = some m) :
    ∃ ext, m.io_queue = s.io_queue ++ ext := by
  obtain ⟨s₁, h1, h2⟩ := midState_cases h
  obtain ⟨e1, he1⟩ := cpu_phase_ioq_ext h1
  obtain ⟨e2, he2⟩ := io_phase_ioq_ext h2
  exact ⟨e1 ++ e2, by rw [he2, he1, List.append_assoc]⟩

theorem cpuAdmitted_head {t : SimState} {a : Process}
    (h : cpuAdmitted t = some a) :
    ∃ ext rest, t.ready_queue ++ ext = a :: rest := by
  unfold cpuAdmitted at h
  cases hm : midState t with
  | none => rw [hm] at h; exact absurd h (by simp)
  | some m =>
      rw [hm] at h
      dsimp only at h
      cases hb : m.cpu_busy with
      | some p => rw [hb] at h; exact absurd h (by simp)
      | none =>
          rw [hb] at h
          cases hq2 : m.ready_queue with
          | nil => rw [hq2] at h; exact absurd h (by simp)
          | cons x rest' =>
              rw [hq2] at h
              simp only [Option.some.injEq] at h
              obtain ⟨ext, hext⟩ := mid_ready_ext hm
              exact ⟨ext, rest', by rw [← hext, hq2, h]⟩

theorem ioAdmitted_head {t : SimState} {a : Process}
    (h : ioAdmitted t = some a) :
    ∃ ext rest, t.io_queue ++ ext = a :: rest := by
  unfold ioAdmitted at h
  cases hm : midState t with
  | none => rw [hm] at h; exact absurd h (by simp)
  | some m =>
      rw [hm] at h
      dsimp only at h
      cases hb : m.io_busy with
      | some p => rw [hb] at h; exact absurd h (by simp)
      | none =>
          rw [hb] at h
          cases hq2 : m.io_queue with
          | nil => rw [hq2] at h; exact absurd h (by simp)
          | cons x rest' =>
              rw [hq2] at h
              simp only [Option.some.injEq] at h
              obtain ⟨ext, hext⟩ := mid_ioq_ext hm
              exact ⟨ext, rest', by rw [← hext, hq2, h]⟩

theorem step_ready_cases {t t' : SimState} (h : simulate_step t = some t') :
    (cpuAdmitted t = none ∧ ∃ ext, t'.ready_queue = t.ready_queue ++ ext) ∨
    (∃ a ext rest, t.ready_queue ++ ext = a :: rest ∧
      cpuAdmitted t = some a ∧ t'.ready_queue = rest) := by
  rw [simulate_step_eq] at h
  cases hm : midState t with
  | none => rw [hm] at h; exact absurd h (by simp)
  | some m =>
      rw [hm] at h
      simp only [Option.map_some', Option.some.injEq] at h
      subst h
      obtain ⟨ext, hext⟩ := mid_ready_ext hm
      cases hb : m.cpu_busy with
      | some p =>
          left
          refine ⟨by simp [cpuAdmitted, hm, hb], ext, ?_⟩
          show (schedule_io (schedule_cpu m)).ready_queue = _
          rw [schedule_io_ready, schedule_cpu_of_busy hb, hext]
      | none =>
          cases hq : m.ready_queue with
          | nil =>
              left
              refine ⟨by simp [cpuAdmitted, hm, hb, hq], ext, ?_⟩
              show (schedule_io (schedule_cpu m)).ready_queue = _
              rw [schedule_io_ready, schedule_cpu_of_nil hq, hext]
          | cons a rest =>
              right
              refine ⟨a, ext, rest, by rw [← hext, hq],
                by simp [cpuAdmitted, hm, hb, hq], ?_⟩
              show (schedule_io (schedule_cpu m)).ready_queue = rest
              rw [schedule_io_ready, schedule_cpu_pop hb hq]

theorem step_ioq_cases {t t' : SimState} (h : simulate_step t = some t') :
    (ioAdmitted t = none ∧ ∃ ext, t'.io_queue = t.io_queue ++ ext) ∨
    (∃ a ext rest, t.io_queue ++ ext = a :: rest ∧
      ioAdmitted t = some a ∧ t'.io_queue = rest) := by
  rw [simulate_step_eq] at h
  cases hm : midState t with
  | none => rw [hm] at h; exact absurd h (by simp)
  | some m =>
      rw [hm] at h
      simp only [Option.map_some', Option.some.injEq] at h
      subst h
      obtain ⟨ext, hext⟩ := mid_ioq_ext hm
      have hxb : (schedule_cpu m).io_busy = m.io_busy := schedule_cpu_io_busy m
      have hxq : (schedule_cpu m).io_queue = m.io_queue := schedule_cpu_ioq m
      cases hb : m.io_busy with
      | some p =>
          left
          refine ⟨by simp [ioAdmitted, hm, hb], ext, ?_⟩
          show (schedule_io (schedule_cpu m)).io_queue = _
          rw [schedule_io_of_busy (by rw [hxb]; exact hb), hxq, hext]
      | none =>
          cases hq : m.io_queue with
          | nil =>
              left
              refine ⟨by simp [ioAdmitted, hm, hb, hq], ext, ?_⟩
              show (schedule_io (schedule_cpu m)).io_queue = _
              rw [schedule_io_of_nil (by rw [hxq]; exact hq), hxq, hext]
          | cons a rest =>
              right
              refine ⟨a, ext, rest, by rw [← hext, hq],
                by simp [ioAdmitted, hm, hb, hq], ?_⟩
              show (schedule_io (schedule_cpu m)).io_queue = rest
              rw [schedule_io_pop (by rw [hxb]; exact hb) (by rw [hxq]; exact hq)]

theorem ready_pids_nodup {t : SimState} (h : NodupPids t) :
    (t.ready_queue.map Process.pid).Nodup := by
  refine List.Nodup.sublist ?_ h
  refine List.Sublist.map _ ?_
  simp only [allProcs]
  exact List.Sublist.trans (List.Sublist.trans
    (List.sublist_append_left _ _) (List.sublist_append_left _ _))
    (List.sublist_append_left _ _)

theorem ioq_pids_nodup {t : SimState} (h : NodupPids t) :
    (t.io_queue.map Process.pid).Nodup := by
  refine List.Nodup.sublist ?_ h
  refine List.Sublist.map _ ?_
  simp only [allProcs]
  exact List.Sublist.trans (List.Sublist.trans
    (List.sublist_append_right _ _) (List.sublist_append_left _ _))
    (List.sublist_append_left _ _)

theorem pid_facts {A : List Process} {p : Process} {B : List Process}
    {q : Process} {C : List Process}
    (hnd : ((A ++ p :: B ++ q :: C).map Process.pid).Nodup) :
    p.pid ≠ q.pid ∧ q.pid ∉ A.map Process.pid := by
  simp only [List.map_append, List.map_cons] at hnd
  rw [List.nodup_append] at hnd
  obtain ⟨hA, hrest, hdisj⟩ := hnd
  constructor
  · intro heq
    exact hdisj (List.mem_append_right _ (List.mem_cons_self _ _))
      (by rw [heq]; exact List.mem_cons_self _ _)
  · intro hmem
    exact hdisj (List.mem_append_left _ hmem) (List.mem_cons_self _ _)

theorem queue_head_split {A : List Process} {p : Process} {B : List Process}
    {q : Process} {C ext rest : List Process} {a : Process}
    (hsh : (A ++ p :: B ++ q :: C) ++ ext = a :: rest) :
    (A = [] ∧ a = p ∧ rest = (B ++ q :: C) ++ ext) ∨
    (∃ A', A = a :: A' ∧ rest = (A' ++ p :: B ++ q :: C) ++ ext) := by
  cases A with
  | nil =>
      simp only [List.nil_append, List.cons_append] at hsh
      obtain ⟨h1, h2⟩ := List.cons.inj hsh
      exact Or.inl ⟨rfl, h1.symm, h2.symm⟩
  | cons a₀ A' =>
      simp only [List.cons_append] at hsh
      obtain ⟨h1, h2⟩ := List.cons.inj hsh
      exact Or.inr ⟨A', by rw [h1], h2.symm⟩

theorem fifo_aux (view : SimState → List Process) (adm : SimState → Option Process)
    (hstepc : ∀ {t t' : SimState}, simulate_step t = some t' →
      (adm t = none ∧ ∃ ext, view t' = view t ++ ext) ∨
      (∃ a ext rest, view t ++ ext = a :: rest ∧
        adm t = some a ∧ view t' = rest))
    (hadm_head : ∀ {t : SimState} {a : Process}, adm t = some a →
      ∃ ext rest, view t ++ ext = a :: rest)
    (hview : ∀ {t : SimState}, NodupPids t → ((view t).map Process.pid).Nodup) :
    ∀ (n : Nat) (t sk : SimState) (A : List Process) (p : Process)
      (B : List Process) (q : Process) (C : List Process),
      NodupPids t → view t = A ++ p :: B ++ q :: C →
      iterN n t = some sk → adm sk = some q →
      ∃ m sm, m < n ∧ iterN m t = some sm ∧ adm sm = some p := by
  have hbase : ∀ (t : SimState) (A : List Process) (p : Process)
      (B : List Process) (q : Process) (C : List Process),
      NodupPids t → view t = A ++ p :: B ++ q :: C → adm t ≠ some q := by
    intro t A p B q C hN hqv hq
    obtain ⟨ext, rest, hsh⟩ := hadm_head hq
    rw [hqv] at hsh
    have hnd : ((A ++ p :: B ++ q :: C).map Process.pid).Nodup := hqv ▸ hview hN
    obtain ⟨hpq, hqA⟩ := pid_facts hnd
    rcases queue_head_split hsh with ⟨hA, hap, -⟩ | ⟨A', hA, -⟩
    · exact hpq (by rw [hap])
    · apply hqA
      rw [hA]
      simp
  intro n
  induction n with
  | zero =>
      intro t sk A p B q C hN hqv h hq
      rw [iterN] at h
      obtain rfl : t = sk := Option.some.inj h
      exact absurd hq (hbase t A p B q C hN hqv)
  | succ n ih =>
      intro t sk A p B q C hN hqv h hq
      rw [iterN] at h
      by_cases hrn : running t
      · rw [if_pos hrn] at h
        cases hstep : simulate_step t with
        | none => rw [hstep] at h; exact absurd h (by simp)
        | some t' =>
            rw [hstep] at h
            rcases hstepc hstep with ⟨hadm0, ext, hv'⟩ |
              ⟨a, ext, rest, hsh, hadm, hv'⟩
            · have hqv' : view t' = A ++ p :: B ++ q :: (C ++ ext) := by
                rw [hv', hqv]
                simp [List.append_assoc]
              obtain ⟨m, sm, hm, hiter, hadmp⟩ :=
                ih t' sk A p B q (C ++ ext) (nodup_step hstep hN) hqv' h hq
              exact ⟨m + 1, sm, by omega,
                by rw [iterN, if_pos hrn, hstep]; exact hiter, hadmp⟩
            · rw [hqv] at hsh
              rcases queue_head_split hsh with ⟨hA, hap, hrest⟩ | ⟨A', hA, hrest⟩
              · refine ⟨0, t, by omega, by rw [iterN], ?_⟩
                rw [hadm, hap]
              · have hqv' : view t' = A' ++ p :: B ++ q :: (C ++ ext) := by
                  rw [hv', hrest]
                  simp [List.append_assoc]
                obtain ⟨m, sm, hm, hiter, hadmp⟩ :=
                  ih t' sk A' p B q (C ++ ext) (nodup_step hstep hN) hqv' h hq
                exact ⟨m + 1, sm, by omega,
                  by rw [iterN, if_pos hrn, hstep]; exact hiter, hadmp⟩
      · rw [if_neg hrn] at h
        obtain rfl : t = sk := Option.some.inj h
        exact absurd hq (hbase t A p B q C hN hqv)

/-! Theorems. Each claim of the specification gets exactly one theorem
(plus, where needed, a counterexample and a witness). -/

/-- C1 (counterexample): on the golden-trace workload the engine terminates
with `time = 16`, not 12 as the claim asserts; the loop condition is indeed
false at that state, so 16 is the genuine terminal time. -/
theorem golden_time_not_twelve :
    iterN 20 (initializeSim goldenWorkload) = some goldenFinal ∧
      running goldenFinal = false ∧ goldenFinal.time ≠ 12 := by
  refine ⟨by decide, by decide, by decide⟩

/-- C1 (amended): the run on the golden-trace workload follows the spec's
trace up to t=12 but then still has to execute P1's third segment (CPU 3),
which the IO release at t=9 put back on the ready queue: P1 is admitted to
the CPU at t=12, runs to t=15, and the engine terminates at `time = 16`
with the twelve-event log recorded in `goldenFinal`. -/
theorem golden_run_trace :
    iterN 20 (initializeSim goldenWorkload) = some goldenFinal ∧
      running goldenFinal = false ∧ goldenFinal.time = 16 := by
  refine ⟨by decide, by decide, rfl⟩

/-- C2 (code evaluated at the failing input): `initialize` performs no
validation at all. A process with an empty segment list is enqueued
(first conjunct), the first tick admits it to the CPU and logs a start
event (second conjunct), and the second tick crashes with `IndexError`
inside `handle_segment_complete` (third conjunct) — there is no
`ConfigurationError` anywhere in the engine. A zero-duration segment is
likewise accepted silently and consumes a full tick (fourth conjunct). -/
theorem no_configuration_error_check :
    initializeSim [emptySegsProc] =
      ⟨0, [emptySegsProc], [], none, none, []⟩ ∧
    iterN 1 (initializeSim [emptySegsProc]) =
      some ⟨1, [], [], some emptySegsProc, none, [⟨"CPU", 7, "start", 0⟩]⟩ ∧
    iterN 2 (initializeSim [emptySegsProc]) = none ∧
    iterN 3 (initializeSim [zeroDurProc]) =
      some ⟨2, [], [], none, none,
        [⟨"CPU", 8, "start", 0⟩, ⟨"CPU", 8, "end", 1⟩]⟩ := by
  refine ⟨by decide, by decide, by decide, by decide⟩

/-- C3 (counterexample): the one-process, one-segment, one-tick workload
terminates with `time = 2`, not 1: the tick that completes the segment
still increments the clock, and the loop exits only at the next check. -/
theorem single_tick_time_not_one :
    iterN 3 (initializeSim [⟨1, [⟨"CPU", 1⟩], 0, 0⟩]) =
      some ⟨2, [], [], none, none,
        [⟨"CPU", 1, "start", 0⟩, ⟨"CPU", 1, "end", 1⟩]⟩ ∧
    (2 : Nat) ≠ 1 := by
  refine ⟨by decide, by decide⟩

/-- C3 (amended): for any pid and any segment kind, the single one-tick
segment workload terminates with `time = 2`, and the log holds exactly one
start and one end event — both on the CPU, because `initialize` appends
every process to the ready queue regardless of its first segment's kind. -/
theorem single_tick_run (pid : Int) (k : String) :
    iterN 3 (initializeSim [⟨pid, [⟨k, 1⟩], 0, 0⟩]) =
      some ⟨2, [], [], none, none,
        [⟨"CPU", pid, "start", 0⟩, ⟨"CPU", pid, "end", 1⟩]⟩ := by
  rfl

/-- C4 (counterexample): on `backToBackCpu` the process completes its first
CPU segment during the tick at t=1 (event index 1: the end event) and is
admitted to the very same CPU again within that same tick (event index 2:
the start event, same resource, same timestamp), because completion
appends it to the ready queue before the admission phase runs. -/
theorem cpu_readmitted_same_tick :
    iterN 4 (initializeSim backToBackCpu) =
      some ⟨3, [], [], none, none,
        [⟨"CPU", 1, "start", 0⟩, ⟨"CPU", 1, "end", 1⟩,
         ⟨"CPU", 1, "start", 1⟩, ⟨"CPU", 1, "end", 2⟩]⟩ := by
  decide

/-- C4 (amended): a process freed from a resource this tick passes through
the target queue within the same tick, and can therefore be admitted to
either resource — including the one it just vacated — in the same tick,
whenever it reaches the head of that queue before the admission phase. The
theorem states the general CPU-to-CPU case: if the CPU's process has one
remaining unit, its next segment routes to the ready queue, and queues and
IO are otherwise empty, the step re-admits it to the CPU immediately,
logging the end and the start with the same timestamp. -/
theorem freed_process_readmitted (st : SimState) (p : Process)
    (hcpu : st.cpu_busy = some p)
    (hrem : p.remaining = 1)
    (hidx : p.current_index + 1 < p.segments.length)
    (hkind : (p.segments.getD (p.current_index + 1) ⟨"", 0⟩).type ≠ "IO")
    (hready : st.ready_queue = [])
    (hio : st.io_busy = none)
    (hioq : st.io_queue = []) :
    simulate_step st =
      some { st with
        time := st.time + 1
        ready_queue := []
        cpu_busy := some
          { p with current_index := p.current_index + 1
                   remaining := (p.segments.getD (p.current_index + 1) ⟨"", 0⟩).duration }
        events := st.events ++
          [⟨"CPU", p.pid, "end", st.time⟩, ⟨"CPU", p.pid, "start", st.time⟩] } := by
  have hlt : p.current_index < p.segments.length := Nat.lt_of_succ_lt hidx
  have hnf : ¬ (p.segments.length ≤ p.current_index + 1) := Nat.not_le.mpr hidx
  rw [List.getD_eq_getElem p.segments ⟨"", 0⟩ hidx] at hkind
  simp [simulate_step, cpu_phase, io_phase, run_one_unit, handle_segment_complete,
    is_finished, start_next, schedule_cpu, schedule_io,
    hcpu, hrem, hlt, hidx, hnf, hkind, hready, hio, hioq,
    List.getD_eq_getElem p.segments ⟨"", 0⟩ hidx]

/-- C7 (counterexample): `initialize` sends every process to the CPU ready
queue, so a process whose first segment is an IO burst executes it on the
CPU. On `singleIoWorkload` the paired occupancy on the CPU sums to 1 tick
while the total duration of CPU-kind segments is 0 (and symmetrically the
IO resource records 0 against an IO-kind total of 1). -/
theorem io_first_segment_runs_on_cpu :
    iterN 3 (initializeSim singleIoWorkload) =
      some ⟨2, [], [], none, none,
        [⟨"CPU", 1, "start", 0⟩, ⟨"CPU", 1, "end", 1⟩]⟩ ∧
    resEvents "CPU" [⟨"CPU", 1, "start", 0⟩, ⟨"CPU", 1, "end", 1⟩] =
      pairsFlat "CPU" [(1, 0, 1)] ∧
    pairSpanSum [(1, 0, 1)] = 1 ∧
    totalKind "CPU" singleIoWorkload = 0 := by
  refine ⟨by decide, by decide, by decide, by decide⟩

/-- Witness for the amended C4 theorem at a concrete state: a process with
two back-to-back CPU segments, one remaining unit, empty queues. -/
theorem freed_process_readmitted_witness :
    simulate_step ⟨1, [], [], some ⟨1, [⟨"CPU", 1⟩, ⟨"CPU", 1⟩], 0, 1⟩, none, []⟩ =
      some ⟨2, [], [], some ⟨1, [⟨"CPU", 1⟩, ⟨"CPU", 1⟩], 1, 1⟩, none,
        [⟨"CPU", 1, "end", 1⟩, ⟨"CPU", 1, "start", 1⟩]⟩ :=
  freed_process_readmitted _ _ rfl rfl (by decide) (by decide) rfl rfl rfl

/-- C5: at every state the engine reaches between ticks on a valid workload
with distinct pids, the pids held across the two queues and the two busy
slots are pairwise distinct (each process reference lives in at most one
structure), and no held process is terminal (`cursor = len(segments)`
processes are dropped, never stored). -/
theorem mutual_exclusion (w : List Process) (s : SimState)
    (hw : ValidWorkload w) (hnd : (w.map Process.pid).Nodup)
    (hr : ReachableFrom w s) :
    ((allProcs s).map Process.pid).Nodup ∧
      ∀ p ∈ allProcs s, is_finished p = false := by
  refine ⟨nodup_reachable hnd hr, ?_⟩
  intro p hp
  have hg := ((inv_reachable hw hr).1).good p hp
  have hlt := hg.1
  simp only [is_finished, decide_eq_false_iff_not]
  omega

/-- Witness for C5 at the freshly initialized single-process workload. -/
theorem mutual_exclusion_witness :
    ((allProcs (initializeSim [⟨1, [⟨"CPU", 1⟩], 0, 0⟩])).map Process.pid).Nodup ∧
      ∀ p ∈ allProcs (initializeSim [⟨1, [⟨"CPU", 1⟩], 0, 0⟩]),
        is_finished p = false :=
  mutual_exclusion _ _
    (by
      intro p hp
      simp only [List.mem_singleton] at hp
      subst hp
      exact ⟨by decide, by decide, rfl⟩)
    (by decide) ⟨0, rfl⟩

/-- C9: at every reachable between-tick state of a valid workload, every
held process has `remaining ≥ 1` (so `remaining` is never negative), and a
process occupying a resource with at least two units left is still busy on
that resource after the next tick with `remaining` decreased by exactly
one (when one unit is left, the tick completes the segment instead). -/
theorem remaining_countdown (w : List Process) (s : SimState)
    (hw : ValidWorkload w) (hr : ReachableFrom w s) :
    (∀ p ∈ allProcs s, 1 ≤ p.remaining) ∧
    (∀ p, s.cpu_busy = some p → 2 ≤ p.remaining →
      ∃ s', simulate_step s = some s' ∧ s'.cpu_busy = some (decRem p)) ∧
    (∀ p, s.io_busy = some p → 2 ≤ p.remaining →
      ∃ s', simulate_step s = some s' ∧ s'.io_busy = some (decRem p)) := by
  have hI := inv_reachable hw hr
  refine ⟨fun p hp => ((hI.1).good p hp).2.1, ?_, ?_⟩
  · intro p hb h2
    obtain ⟨s', hs⟩ := step_progress hI
    refine ⟨s', hs, ?_⟩
    rw [simulate_step_eq] at hs
    cases hm : midState s with
    | none => rw [hm] at hs; exact absurd hs (by simp)
    | some m =>
        rw [hm] at hs
        simp only [Option.map_some', Option.some.injEq] at hs
        obtain ⟨s₁, h1, h2'⟩ := midState_cases hm
        have hc1 : s₁.cpu_busy = some (decRem p) := by
          rcases cpu_phase_cases h1 with ⟨hb', _⟩ | ⟨q, hb', hq1, rfl⟩ |
            ⟨q, hb', hq1, _, _, _⟩ | ⟨q, hb', hq1, _, _, _⟩ | ⟨q, hb', hq1, _, _, _⟩
          · rw [hb] at hb'
            exact absurd hb' (by simp)
          · rw [hb] at hb'
            cases Option.some.inj hb'
            rfl
          · rw [hb] at hb'
            cases Option.some.inj hb'
            omega
          · rw [hb] at hb'
            cases Option.some.inj hb'
            omega
          · rw [hb] at hb'
            cases Option.some.inj hb'
            omega
        have hmc : m.cpu_busy = some (decRem p) := by
          rw [io_phase_cpu_busy h2', hc1]
        rw [← hs]
        show (schedule_io (schedule_cpu m)).cpu_busy = some (decRem p)
        rw [schedule_io_cpu_busy, schedule_cpu_of_busy hmc]
        exact hmc
  · intro p hb h2
    obtain ⟨s', hs⟩ := step_progress hI
    refine ⟨s', hs, ?_⟩
    rw [simulate_step_eq] at hs
    cases hm : midState s with
    | none => rw [hm] at hs; exact absurd hs (by simp)
    | some m =>
        rw [hm] at hs
        simp only [Option.map_some', Option.some.injEq] at hs
        obtain ⟨s₁, h1, h2'⟩ := midState_cases hm
        have hio1 : s₁.io_busy = some p := by
          rw [cpu_phase_io_busy h1, hb]
        have hmc : m.io_busy = some (decRem p) := by
          rcases io_phase_cases h2' with ⟨hb', _⟩ | ⟨q, hb', hq1, rfl⟩ |
            ⟨q, hb', hq1, _, _, _⟩ | ⟨q, hb', hq1, _, _, _⟩ | ⟨q, hb', hq1, _, _, _⟩
          · rw [hio1] at hb'
            exact absurd hb' (by simp)
          · rw [hio1] at hb'
            cases Option.some.inj hb'
            rfl
          · rw [hio1] at hb'
            cases Option.some.inj hb'
            omega
          · rw [hio1] at hb'
            cases Option.some.inj hb'
            omega
          · rw [hio1] at hb'
            cases Option.some.inj hb'
            omega
        rw [← hs]
        show (schedule_io (schedule_cpu m)).io_busy = some (decRem p)
        rw [show schedule_io (schedule_cpu m) = schedule_cpu m from
          schedule_io_of_busy (by rw [schedule_cpu_io_busy]; exact hmc)]
        rw [schedule_cpu_io_busy]
        exact hmc

/-- C10: on every valid non-empty workload, when `run` reaches its terminal
state the clock equals the timestamp of the last end event in the log plus
one: the tick that completes the last segment emits its end event at the
pre-increment time and then still increments the clock. -/
theorem final_time_eq (w : List Process) (s : SimState)
    (hw : ValidWorkload w) (hne : w ≠ []) (ht : Terminates w s) :
    ∃ e, (s.events.filter (fun ev => ev.phase == "end")).getLast? = some e ∧
      s.time = e.time + 1 := by
  obtain ⟨n, hn, hterm⟩ := ht
  have hstart : running (initializeSim w) = true := by
    cases w with
    | nil => exact absurd rfl hne
    | cons p rest => simp [running, initializeSim]
  rcases last_end_iter hn (Or.inl hstart) with hJ | hJ
  · rw [hterm] at hJ
    exact absurd hJ (by simp)
  · obtain ⟨e, hlast, hph, htime⟩ := hJ
    refine ⟨e, ?_, htime⟩
    obtain ⟨l', a, hconcat⟩ : ∃ (l' : List Event) (a : Event),
        s.events = l'.concat a := by
      rcases List.eq_nil_or_concat s.events with hnil | h'
      · rw [hnil] at hlast
        exact absurd hlast (by simp)
      · exact h'
    rw [List.concat_eq_append] at hconcat
    have ha : a = e := by
      rw [hconcat, List.getLast?_concat] at hlast
      exact Option.some.inj hlast
    subst ha
    rw [hconcat, List.filter_append]
    have hfa : List.filter (fun ev => ev.phase == "end") [a] = [a] := by
      simp [hph]
    rw [hfa, List.getLast?_concat]

/-- C6: in the log of any terminated run of a valid workload, the events of
each key `(resource, pid)` form consecutive closed start/end pairs — each
start is answered by exactly one matching end before the key starts again,
every pair carries that key's pid, and the timestamps are nondecreasing
along the key's trace, so the reconstructed occupancy intervals never
overlap. -/
theorem event_pairing (w : List Process) (s : SimState)
    (hw : ValidWorkload w) (ht : Terminates w s) :
    ∀ (R : String) (i : Int), ∃ pl,
      keyEvents R i s.events = pairsFlat R pl ∧
      (∀ q ∈ pl, q.1 = i) ∧
      List.Pairwise (fun a b => a.time ≤ b.time) (keyEvents R i s.events) := by
  obtain ⟨n, hn, hterm⟩ := ht
  have hI := inv_reachable hw ⟨n, hn⟩
  obtain ⟨hre, hie, hcb, hib⟩ := terminal_empty hterm
  intro R i
  have hsorted : List.Pairwise (fun a b => a.time ≤ b.time)
      (keyEvents R i s.events) := by
    refine List.Pairwise.sublist ?_ hI.1.sorted
    exact (List.filter_sublist _).trans (List.filter_sublist _)
  have hkey : ∀ pl0, resEvents R s.events = pairsFlat R pl0 →
      ∃ pl, keyEvents R i s.events = pairsFlat R pl ∧ ∀ q ∈ pl, q.1 = i := by
    intro pl0 hpl0
    refine ⟨pl0.filter (fun q => q.1 == i), ?_, ?_⟩
    · rw [keyEvents, hpl0, keyFilter_pairsFlat]
    · intro q hq
      have := List.of_mem_filter hq
      simpa using this
  by_cases hC : R = "CPU"
  · subst hC
    have hshape := hI.1.shapeC
    rw [hcb] at hshape
    obtain ⟨pl0, hpl0⟩ := hshape
    obtain ⟨pl, h1, h2⟩ := hkey pl0 hpl0
    exact ⟨pl, h1, h2, hsorted⟩
  · by_cases hIO : R = "IO"
    · subst hIO
      have hshape := hI.1.shapeI
      rw [hib] at hshape
      obtain ⟨pl0, hpl0⟩ := hshape
      obtain ⟨pl, h1, h2⟩ := hkey pl0 hpl0
      exact ⟨pl, h1, h2, hsorted⟩
    · have hres : resEvents R s.events = [] := by
        rw [resEvents, List.filter_eq_nil_iff]
        intro e he hcon
        rw [beq_iff_eq] at hcon
        rcases hI.1.resOK e he with h | h
        · rw [h] at hcon
          exact hC hcon.symm
        · rw [h] at hcon
          exact hIO hcon.symm
      obtain ⟨pl, h1, h2⟩ := hkey [] (by rw [hres]; rfl)
      exact ⟨pl, h1, h2, hsorted⟩

/-- Witness for C6: the single-process run, key (CPU, 1). -/
theorem event_pairing_witness :
    ∃ pl, keyEvents "CPU" 1
        ((⟨2, [], [], none, none,
          [⟨"CPU", 1, "start", 0⟩, ⟨"CPU", 1, "end", 1⟩]⟩ : SimState)).events =
        pairsFlat "CPU" pl ∧
      (∀ q ∈ pl, q.1 = 1) ∧
      List.Pairwise (fun a b => a.time ≤ b.time)
        (keyEvents "CPU" 1
          ((⟨2, [], [], none, none,
            [⟨"CPU", 1, "start", 0⟩, ⟨"CPU", 1, "end", 1⟩]⟩ : SimState)).events) :=
  event_pairing [⟨1, [⟨"CPU", 1⟩], 0, 0⟩] _
    (by
      intro p hp
      simp only [List.mem_singleton] at hp
      subst hp
      exact ⟨by decide, by decide, rfl⟩)
    ⟨3, by decide, by decide⟩ "CPU" 1

/-- C7 (amended): for every valid workload whose segment kinds are all CPU
or IO and whose first segments are CPU bursts — the proviso forced by
`initialize` routing every first segment to the CPU — the terminal log of
each resource decomposes into closed start/end pairs whose spans sum to the
total duration of that kind's segments across all processes. -/
theorem resource_time_conservation (w : List Process) (s : SimState)
    (hw : ValidWorkload w)
    (hfirst : ∀ p ∈ w, (p.segments.headD ⟨"", 0⟩).type = "CPU")
    (hkinds : ∀ p ∈ w, ∀ seg ∈ p.segments, seg.type = "CPU" ∨ seg.type = "IO")
    (ht : Terminates w s) :
    ∀ R, R = "CPU" ∨ R = "IO" →
      ∃ pl, resEvents R s.events = pairsFlat R pl ∧
        pairSpanSum pl = totalKind R w := by
  obtain ⟨n, hn, hterm⟩ := ht
  have hI := inv_reachable hw ⟨n, hn⟩
  obtain ⟨hre, hie, hcb, hib⟩ := terminal_empty hterm
  have hpend : ∀ R, pending R s = 0 := by
    intro R
    simp [pending, hre, hie, hcb, hib, sumF_nil, optList]
  intro R hR
  have htot := totalWork_eq_totalKind R hR hw hfirst hkinds
  rcases hR with rfl | rfl
  · have hshape := hI.1.shapeC
    rw [hcb] at hshape
    obtain ⟨pl, hpl⟩ := hshape
    refine ⟨pl, hpl, ?_⟩
    have hled := hI.2.1
    rw [hcb, ledger_none, hpend] at hled
    have he1 : endSum "CPU" s.events = (pl.map (fun q => (q.2.2 : Int))).sum := by
      rw [← endSum_resEvents, hpl, endSum_pairsFlat]
    have hs1 : startSum "CPU" s.events = (pl.map (fun q => (q.2.1 : Int))).sum := by
      rw [← startSum_resEvents, hpl, startSum_pairsFlat]
    rw [pairSpanSum_eq, ← he1, ← hs1, ← htot]
    linarith [hled]
  · have hshape := hI.1.shapeI
    rw [hib] at hshape
    obtain ⟨pl, hpl⟩ := hshape
    refine ⟨pl, hpl, ?_⟩
    have hled := hI.2.2
    rw [hib, ledger_none, hpend] at hled
    have he1 : endSum "IO" s.events = (pl.map (fun q => (q.2.2 : Int))).sum := by
      rw [← endSum_resEvents, hpl, endSum_pairsFlat]
    have hs1 : startSum "IO" s.events = (pl.map (fun q => (q.2.1 : Int))).sum := by
      rw [← startSum_resEvents, hpl, startSum_pairsFlat]
    rw [pairSpanSum_eq, ← he1, ← hs1, ← htot]
    linarith [hled]

/-- Witness for the amended C7: the single CPU-burst workload, CPU side. -/
theorem resource_time_conservation_witness :
    ∃ pl, resEvents "CPU"
        ((⟨2, [], [], none, none,
          [⟨"CPU", 1, "start", 0⟩, ⟨"CPU", 1, "end", 1⟩]⟩ : SimState)).events =
        pairsFlat "CPU" pl ∧
      pairSpanSum pl = totalKind "CPU" [⟨1, [⟨"CPU", 1⟩], 0, 0⟩] :=
  resource_time_conservation [⟨1, [⟨"CPU", 1⟩], 0, 0⟩] _
    (by
      intro p hp
      simp only [List.mem_singleton] at hp
      subst hp
      exact ⟨by decide, by decide, rfl⟩)
    (by
      intro p hp
      simp only [List.mem_singleton] at hp
      subst hp
      decide)
    (by
      intro p hp seg hseg
      simp only [List.mem_singleton] at hp
      subst hp
      simp only [List.mem_singleton] at hseg
      subst hseg
      exact Or.inl rfl)
    ⟨3, by decide, by decide⟩ "CPU" (Or.inl rfl)

/-- Witness for C10 at the one-process one-tick workload, whose terminal
state has time 2 and last end event at time 1. -/
theorem final_time_eq_witness :
    ∃ e, (((⟨2, [], [], none, none,
        [⟨"CPU", 1, "start", 0⟩, ⟨"CPU", 1, "end", 1⟩]⟩ : SimState)).events.filter
          (fun ev => ev.phase == "end")).getLast? = some e ∧
      (⟨2, [], [], none, none,
        [⟨"CPU", 1, "start", 0⟩, ⟨"CPU", 1, "end", 1⟩]⟩ : SimState).time = e.time + 1 :=
  final_time_eq [⟨1, [⟨"CPU", 1⟩], 0, 0⟩] _
    (by
      intro p hp
      simp only [List.mem_singleton] at hp
      subst hp
      exact ⟨by decide, by decide, rfl⟩)
    (by decide)
    ⟨3, by decide, by decide⟩

/-- Witness for C9 at a reachable state with both resources busy: the
golden workload after seven ticks (`goldenMid`). -/
theorem remaining_countdown_witness :
    (∀ p ∈ allProcs goldenMid, 1 ≤ p.remaining) ∧
    (∀ p, goldenMid.cpu_busy = some p → 2 ≤ p.remaining →
      ∃ s', simulate_step goldenMid = some s' ∧ s'.cpu_busy = some (decRem p)) ∧
    (∀ p, goldenMid.io_busy = some p → 2 ≤ p.remaining →
      ∃ s', simulate_step goldenMid = some s' ∧ s'.io_busy = some (decRem p)) :=
  remaining_countdown goldenWorkload goldenMid
    (by
      intro p hp
      simp only [goldenWorkload, List.mem_cons, List.not_mem_nil, or_false] at hp
      rcases hp with rfl | rfl | rfl
      · exact ⟨by decide, by decide, rfl⟩
      · exact ⟨by decide, by decide, rfl⟩
      · exact ⟨by decide, by decide, rfl⟩)
    ⟨7, by decide⟩

/-- Claim C8: FIFO fairness of both queues. From any reachable state of a
workload with distinct pids: (1) if process `p` sits ahead of process `q` in
the ready queue, and `q` is admitted to the CPU during the tick taken at step
`n`, then `p` was admitted to the CPU at some strictly earlier step; (2) the
same for the io queue and the IO resource; (3) admission always removes the
head of the queue (oldest arrival, after the tick's own completions appended
behind it), with no reordering: the admitted process is the head and the
post-tick queue is the tail. -/
theorem fifo_fairness (w : List Process) (s : SimState)
    (hnd : (w.map Process.pid).Nodup) (hr : ReachableFrom w s) :
    (∀ (A : List Process) (p : Process) (B : List Process) (q : Process)
        (C : List Process) (n : Nat) (sk : SimState),
        s.ready_queue = A ++ p :: B ++ q :: C →
        iterN n s = some sk → cpuAdmitted sk = some q →
        ∃ m sm, m < n ∧ iterN m s = some sm ∧ cpuAdmitted sm = some p) ∧
    (∀ (A : List Process) (p : Process) (B : List Process) (q : Process)
        (C : List Process) (n : Nat) (sk : SimState),
        s.io_queue = A ++ p :: B ++ q :: C →
        iterN n s = some sk → ioAdmitted sk = some q →
        ∃ m sm, m < n ∧ iterN m s = some sm ∧ ioAdmitted sm = some p) ∧
    (∀ s' : SimState, simulate_step s = some s' →
      (∀ a : Process, cpuAdmitted s = some a →
        ∃ ext rest, s.ready_queue ++ ext = a :: rest ∧ s'.ready_queue = rest) ∧
      (∀ a : Process, ioAdmitted s = some a →
        ∃ ext rest, s.io_queue ++ ext = a :: rest ∧ s'.io_queue = rest)) := by
  have hN : NodupPids s := nodup_reachable hnd hr
  refine ⟨?_, ?_, ?_⟩
  · intro A p B q C n sk hqv hit hadm
    exact fifo_aux (fun t => t.ready_queue) cpuAdmitted step_ready_cases
      cpuAdmitted_head ready_pids_nodup n s sk A p B q C hN hqv hit hadm
  · intro A p B q C n sk hqv hit hadm
    exact fifo_aux (fun t => t.io_queue) ioAdmitted step_ioq_cases
      ioAdmitted_head ioq_pids_nodup n s sk A p B q C hN hqv hit hadm
  · intro s' hstep
    constructor
    · intro a ha
      rcases step_ready_cases hstep with ⟨h0, -⟩ | ⟨a', ext, rest, hsh, hadm, hv⟩
      · rw [h0] at ha; exact absurd ha (by simp)
      · rw [hadm] at ha
        obtain rfl : a' = a := Option.some.inj ha
        exact ⟨ext, rest, hsh, hv⟩
    · intro a ha
      rcases step_ioq_cases hstep with ⟨h0, -⟩ | ⟨a', ext, rest, hsh, hadm, hv⟩
      · rw [h0] at ha; exact absurd ha (by simp)
      · rw [hadm] at ha
        obtain rfl : a' = a := Option.some.inj ha
        exact ⟨ext, rest, hsh, hv⟩

/-- Witness for C8 on the two-process workload P1=[CPU 1], P2=[CPU 1]: P2 is
admitted to the CPU at the tick taken at step 1 (after P1 completes), and the
theorem yields an admission of P1 at a step before it. -/
theorem fifo_fairness_witness :
    ∃ m sm, m < 1 ∧
      iterN m (initializeSim
        [⟨1, [⟨"CPU", 1⟩], 0, 0⟩, ⟨2, [⟨"CPU", 1⟩], 0, 0⟩]) = some sm ∧
      cpuAdmitted sm = some ⟨1, [⟨"CPU", 1⟩], 0, 1⟩ :=
  (fifo_fairness [⟨1, [⟨"CPU", 1⟩], 0, 0⟩, ⟨2, [⟨"CPU", 1⟩], 0, 0⟩]
      (initializeSim [⟨1, [⟨"CPU", 1⟩], 0, 0⟩, ⟨2, [⟨"CPU", 1⟩], 0, 0⟩])
      (by decide) ⟨0, rfl⟩).1
    [] ⟨1, [⟨"CPU", 1⟩], 0, 1⟩ [] ⟨2, [⟨"CPU", 1⟩], 0, 1⟩ [] 1
    ⟨1, [⟨2, [⟨"CPU", 1⟩], 0, 1⟩], [], some ⟨1, [⟨"CPU", 1⟩], 0, 1⟩, none,
      [⟨"CPU", 1, "start", 0⟩]⟩
    (by decide) (by decide) (by decide)

end BatchSim
